import Mathlib

/-!
Verification of the CortexDB gateway core against its specification.

Each section embeds one part of the gateway source shallowly in Lean:
Python functions become Lean functions, stateful service methods become
explicit state passing, machine/library primitives that live outside the
repository (SHA-256, UUIDv5, the stores) are passed in as function
parameters or modelled by their documented semantics.
-/

namespace CortexDB

/-! ## Chunker (gateway/core/chunking.py) -/

/-- Python str.split() with no arguments: maximal runs of non-whitespace
characters, in order; leading/trailing/repeated whitespace produces no
empty tokens.  First argument is the remaining input, second the
characters of the token currently being read (reversed). -/
def splitWS : List Char → List Char → List String
  | [], cur => if cur.isEmpty then [] else [String.mk cur.reverse]
  | c :: rest, cur =>
    if c.isWhitespace then
      (if cur.isEmpty then [] else [String.mk cur.reverse]) ++ splitWS rest []
    else splitWS rest (c :: cur)

/-- text.split() as used by chunk_text. -/
def pySplit (s : String) : List String := splitWS s.toList []

/-- The clamp at the top of chunk_text: if chunk_overlap >= chunk_size then
chunk_overlap = max(0, chunk_size // 4).  Python // on a positive dividend
agrees with Int division here. -/
def effectiveOverlap (chunk_size chunk_overlap : Int) : Int :=
  if chunk_overlap ≥ chunk_size then max 0 (chunk_size / 4) else chunk_overlap

theorem effectiveOverlap_lt (cs co : Int) (h : 0 < cs) : effectiveOverlap cs co < cs := by
  unfold effectiveOverlap
  split <;> omega

/-- The while-loop of chunk_text: while start < len(tokens), slice
tokens[start:end] with end = min(len(tokens), start + chunk_size), join with
a single space, stop when end reaches len(tokens), else continue from
max(0, end - chunk_overlap).  The two proof arguments record that
chunk_size is positive and that the (already clamped) overlap is below
chunk_size, which is what makes the Python loop terminate. -/
def chunkLoop (tokens : List String) (csize : Nat) (ov : Int)
    (hs : 0 < csize) (hov : ov < (csize : Int)) (start : Nat) : List String :=
  if h : start < tokens.length then
    let e := min tokens.length (start + csize)
    let ct := (tokens.drop start).take (e - start)
    if ct.isEmpty then []
    else
      let c := String.intercalate " " ct
      if e = tokens.length then [c]
      else c :: chunkLoop tokens csize ov hs hov (max 0 ((e : Int) - ov)).toNat
  else []
termination_by tokens.length - start
decreasing_by
  simp only [e] at *
  omega

/-- chunk_text(text, chunk_size, chunk_overlap): raises ValueError when
chunk_size <= 0, clamps the overlap, splits on whitespace and emits the
joined sliding windows. -/
def chunk_text (text : String) (chunk_size chunk_overlap : Int) :
    Except String (List String) :=
  if h : chunk_size ≤ 0 then .error "chunk_size must be positive"
  else
    .ok (chunkLoop (pySplit text) chunk_size.toNat
      (effectiveOverlap chunk_size chunk_overlap)
      (by omega)
      (by have := effectiveOverlap_lt chunk_size chunk_overlap (by omega); omega)
      0)

theorem chunkLoop_of_ge (tokens : List String) (csize : Nat) (ov : Int)
    (hs : 0 < csize) (hov : ov < (csize : Int)) (start : Nat)
    (h : tokens.length ≤ start) :
    chunkLoop tokens csize ov hs hov start = [] := by
  rw [chunkLoop]
  simp [Nat.not_lt.mpr h]

theorem drop_take_ne_nil (tokens : List String) (csize start : Nat)
    (hs : 0 < csize) (h : start < tokens.length) :
    ((tokens.drop start).take csize).isEmpty = false := by
  rw [List.isEmpty_eq_false_iff_exists_mem]
  have hl : ((tokens.drop start).take csize).length = min csize (tokens.length - start) := by
    simp
  have hlen : 0 < ((tokens.drop start).take csize).length := by omega
  exact List.exists_mem_of_length_pos hlen

theorem chunkLoop_last (tokens : List String) (csize : Nat) (ov : Int)
    (hs : 0 < csize) (hov : ov < (csize : Int)) (start : Nat)
    (h : start < tokens.length) (hend : tokens.length ≤ start + csize) :
    chunkLoop tokens csize ov hs hov start
      = [String.intercalate " " ((tokens.drop start).take csize)] := by
  rw [chunkLoop]
  simp only [dif_pos h]
  have hmin : tokens.length ⊓ (start + csize) = tokens.length := min_eq_left hend
  rw [hmin]
  have htk : (tokens.drop start).take (tokens.length - start)
      = (tokens.drop start).take csize := by
    rw [List.take_eq_take]
    simp
    omega
  rw [htk, if_neg (by simp [drop_take_ne_nil tokens csize start hs h]), if_pos rfl]

theorem chunkLoop_cons (tokens : List String) (csize : Nat) (ov : Int)
    (hs : 0 < csize) (hov : ov < (csize : Int)) (start : Nat)
    (hend : start + csize < tokens.length) :
    chunkLoop tokens csize ov hs hov start
      = String.intercalate " " ((tokens.drop start).take csize)
        :: chunkLoop tokens csize ov hs hov ((start : Int) + csize - ov).toNat := by
  have h : start < tokens.length := by omega
  rw [chunkLoop]
  simp only [dif_pos h]
  have hmin : tokens.length ⊓ (start + csize) = start + csize := min_eq_right (by omega)
  rw [hmin]
  have htk : (tokens.drop start).take (start + csize - start)
      = (tokens.drop start).take csize := by
    congr 1
    omega
  rw [htk, if_neg (by simp [drop_take_ne_nil tokens csize start hs h]),
    if_neg (by omega)]
  congr 2
  push_cast
  omega

/-- The token window of width csize starting at (integer) position p,
joined with single spaces, exactly as the loop emits it. -/
def chunkWindow (tokens : List String) (csize : Nat) (p : Int) : String :=
  String.intercalate " " ((tokens.drop p.toNat).take csize)

/-- Start position of the k-th chunk: start + k * (size - overlap). -/
def chunkPos (start : Nat) (csize : Nat) (ov : Int) (k : Nat) : Int :=
  (start : Int) + k * ((csize : Int) - ov)

theorem chunkPos_zero (start csize : Nat) (ov : Int) :
    chunkPos start csize ov 0 = (start : Int) := by
  simp [chunkPos]

theorem chunkPos_shift (start csize : Nat) (ov : Int) (hov : ov < (csize : Int)) (k : Nat) :
    chunkPos (((start : Int) + csize - ov).toNat) csize ov k
      = chunkPos start csize ov (k + 1) := by
  unfold chunkPos
  have h0 : 0 ≤ (start : Int) + csize - ov := by omega
  rw [Int.toNat_of_nonneg h0]
  push_cast
  ring

/-- Full characterisation of the chunking loop: it is empty iff the start is
past the tokens, the k-th chunk is the window at start + k*(size-overlap),
and a (k+1)-st chunk exists iff the k-th window did not reach the end of the
tokens and the next start is still inside them. -/
theorem chunkLoop_master (tokens : List String) (csize : Nat) (ov : Int)
    (hs : 0 < csize) (hov : ov < (csize : Int)) (start : Nat) :
    (chunkLoop tokens csize ov hs hov start = [] ↔ tokens.length ≤ start) ∧
    (∀ k (hk : k < (chunkLoop tokens csize ov hs hov start).length),
      (chunkLoop tokens csize ov hs hov start)[k]
        = chunkWindow tokens csize (chunkPos start csize ov k)) ∧
    (∀ k, k < (chunkLoop tokens csize ov hs hov start).length →
      (k + 1 < (chunkLoop tokens csize ov hs hov start).length ↔
        (chunkPos start csize ov k + csize < (tokens.length : Int) ∧
         chunkPos start csize ov (k + 1) < (tokens.length : Int)))) := by
  generalize hmeas : tokens.length - start = n
  induction n using Nat.strong_induction_on generalizing start with
  | _ n ih =>
    by_cases h1 : tokens.length ≤ start
    · rw [chunkLoop_of_ge tokens csize ov hs hov start h1]
      refine ⟨by simp [h1], by simp, by simp⟩
    · push_neg at h1
      by_cases h2 : tokens.length ≤ start + csize
      · rw [chunkLoop_last tokens csize ov hs hov start h1 h2]
        refine ⟨by simp; omega, ?_, ?_⟩
        · intro k hk
          simp at hk
          subst hk
          simp [chunkWindow, chunkPos_zero]
        · intro k hk
          simp at hk
          subst hk
          simp only [List.length_singleton]
          constructor
          · omega
          · rintro ⟨hc, -⟩
            rw [chunkPos_zero] at hc
            omega
      · push_neg at h2
        rw [chunkLoop_cons tokens csize ov hs hov start h2]
        set start' : Nat := (((start : Int)) + csize - ov).toNat with hstart'
        have hstart'cast : (start' : Int) = (start : Int) + csize - ov := by
          rw [hstart']
          exact Int.toNat_of_nonneg (by omega)
        have hlt : start < start' := by omega
        have ihm := ih (tokens.length - start') (by omega) start' rfl
        obtain ⟨iha, ihb, ihc⟩ := ihm
        refine ⟨by simp; omega, ?_, ?_⟩
        · intro k hk
          match k with
          | 0 =>
            simp [chunkWindow, chunkPos_zero]
          | Nat.succ m =>
            simp only [List.getElem_cons_succ]
            rw [ihb m (by simpa using hk), chunkPos_shift start csize ov hov]
        · intro k hk
          match k with
          | 0 =>
            simp only [List.length_cons]
            rw [chunkPos_zero]
            constructor
            · intro hlen
              refine ⟨by omega, ?_⟩
              have hne : chunkLoop tokens csize ov hs hov start' ≠ [] := by
                intro hnil
                rw [hnil] at hlen
                simp at hlen
              have := (not_iff_not.mpr iha).mp hne
              push_neg at this
              rw [show chunkPos start csize ov (0 + 1) = (start' : Int) by
                rw [← chunkPos_shift start csize ov hov 0, chunkPos_zero]]
              exact_mod_cast this
            · rintro ⟨-, hnext⟩
              rw [show chunkPos start csize ov (0 + 1) = (start' : Int) by
                rw [← chunkPos_shift start csize ov hov 0, chunkPos_zero]] at hnext
              have hlt2 : start' < tokens.length := by exact_mod_cast hnext
              have hne := (not_iff_not.mpr iha).mpr (by omega)
              have hpos : 0 < (chunkLoop tokens csize ov hs hov start').length :=
                List.length_pos.mpr hne
              omega
          | Nat.succ m =>
            have hk' : m < (chunkLoop tokens csize ov hs hov start').length := by
              simp only [List.length_cons] at hk
              omega
            have hiff := ihc m hk'
            rw [chunkPos_shift start csize ov hov m,
              chunkPos_shift start csize ov hov (m + 1)] at hiff
            simp only [List.length_cons]
            constructor
            · intro hh
              exact hiff.mp (by omega)
            · intro hh
              have := hiff.mpr hh
              omega

theorem chunk_text_clamp (text : String) (cs co : Int) (hs : 0 < cs) (hco : cs ≤ co) :
    chunk_text text cs co = chunk_text text cs (cs / 4) := by
  have heq : effectiveOverlap cs co = effectiveOverlap cs (cs / 4) := by
    unfold effectiveOverlap
    rw [if_pos (by omega), if_neg (by omega)]
    omega
  unfold chunk_text
  rw [dif_neg (by omega), dif_neg (by omega)]
  simp only [heq]

/-- The behaviour claimed for chunk_text at a positive size: the call
succeeds, an empty input yields the empty list, an overlap at least the
size behaves as the clamped overlap size/4, and the output is exactly the
list of whitespace-token windows of the size, starting at multiples of
size minus the effective overlap, each joined with single spaces. -/
def ChunkTextSpec (text : String) (cs co : Int) : Prop :=
  ∃ L, chunk_text text cs co = Except.ok L ∧
    chunk_text "" cs co = Except.ok [] ∧
    (cs ≤ co → chunk_text text cs co = chunk_text text cs (cs / 4)) ∧
    (L = [] ↔ pySplit text = []) ∧
    (∀ k, (hk : k < L.length) →
      L[k] = chunkWindow (pySplit text) cs.toNat
        (chunkPos 0 cs.toNat (effectiveOverlap cs co) k)) ∧
    (∀ k, k < L.length →
      (k + 1 < L.length ↔
        (chunkPos 0 cs.toNat (effectiveOverlap cs co) k + cs.toNat
            < ((pySplit text).length : Int) ∧
         chunkPos 0 cs.toNat (effectiveOverlap cs co) (k + 1)
            < ((pySplit text).length : Int))))

/-- C5: chunk_text(text, size, overlap) is a pure deterministic function
that, for every positive size, splits text on whitespace into tokens, emits
consecutive windows of size tokens whose start advances by size − overlap,
clamps overlap to size/4 whenever overlap ≥ size, and returns the empty
list when the input is empty. -/
theorem chunk_text_correct (text : String) (cs co : Int) (hs : 0 < cs) :
    ChunkTextSpec text cs co := by
  have hnn : ¬ cs ≤ 0 := by omega
  have hcast : ((cs.toNat : Nat) : Int) = cs := Int.toNat_of_nonneg (by omega)
  have hszpos : 0 < cs.toNat := by omega
  have hov : effectiveOverlap cs co < ((cs.toNat : Nat) : Int) := by
    have := effectiveOverlap_lt cs co hs
    omega
  obtain ⟨ma, mb, mc⟩ :=
    chunkLoop_master (pySplit text) cs.toNat (effectiveOverlap cs co) hszpos hov 0
  refine ⟨chunkLoop (pySplit text) cs.toNat (effectiveOverlap cs co) hszpos hov 0,
    ?_, ?_, fun hco => chunk_text_clamp text cs co hs hco, ?_, mb, mc⟩
  · unfold chunk_text
    rw [dif_neg hnn]
  · unfold chunk_text
    rw [dif_neg hnn]
    rw [show pySplit "" = [] from by decide]
    rw [chunkLoop_of_ge _ _ _ _ _ 0 (by simp)]
  · rw [ma]
    constructor
    · intro h
      have : (pySplit text).length = 0 := by omega
      exact List.length_eq_zero.mp this
    · intro h
      simp [h]

/-- Witness for chunk_text_correct at text "alpha beta gamma delta", size 2,
overlap 5 (an overlap above the size, exercising the clamp). -/
theorem chunk_text_correct_witness :
    (0 : Int) < 2 ∧ ChunkTextSpec "alpha beta gamma delta" 2 5 :=
  ⟨by decide, chunk_text_correct "alpha beta gamma delta" 2 5 (by decide)⟩


/-! ## API key generation (gateway/utils/api_key.py) -/

/-- APIKeyType from gateway/models/api_key.py: admin, database, readonly. -/
inductive APIKeyType
  | admin
  | database
  | readonly
deriving DecidableEq

/-- The private helper that maps a key type to the prefix used inside the
plaintext (the trailing "unknown" branch of the Python function is
unreachable because the enum has exactly these three members). -/
def getTypePrefix : APIKeyType → String
  | .admin => "admin"
  | .database => "live"
  | .readonly => "test"

/-- Lowercase hexadecimal digit, as produced by secrets.token_hex. -/
def isLowerHexDigit (c : Char) : Bool :=
  c.isDigit || ('a' ≤ c && c ≤ 'f')

/-- The triple returned by generate_api_key.  SHA-256 lives outside the
repository (hashlib), so the hex-digest function is a parameter; the
64-hex-character random part produced by secrets.token_hex(32) is a
parameter as well. -/
structure GeneratedKey where
  full_key : String
  key_hash : String
  key_prefix : String
deriving DecidableEq

/-- generate_api_key(key_type): full_key = "cortexdb_" + type_prefix + "_" +
random_part, key_hash = sha256 hex of the full key, key_prefix =
full_key[:25] + "...". -/
def generate_api_key (sha256hex : String → String) (random_part : String)
    (key_type : APIKeyType) : GeneratedKey :=
  let type_prefix := getTypePrefix key_type
  let full_key := "cortexdb_" ++ type_prefix ++ "_" ++ random_part
  { full_key := full_key
    key_hash := sha256hex full_key
    key_prefix := full_key.take 25 ++ "..." }

deriving instance DecidableEq for Except

set_option maxRecDepth 8192 in
/-- C8 counterexample: the stored key_prefix is NOT the first 25 characters
of the plaintext: it is those 25 characters followed by "...".  Checked at a
concrete 64-hex-character random part with the identity standing in for the
hash function (the prefix does not depend on it). -/
theorem generate_api_key_prefix_not_25 :
    GeneratedKey.key_prefix (generate_api_key id
        "0123456789abcdef0123456789abcdef0123456789abcdef0123456789abcdef"
        APIKeyType.admin)
      ≠ (generate_api_key id
        "0123456789abcdef0123456789abcdef0123456789abcdef0123456789abcdef"
        APIKeyType.admin).full_key.take 25 := by
  decide

/-- C8 (amended): generate_api_key returns a plaintext of the exact form
cortexdb_{admin|live|test}_{random_part} (64 lowercase hex characters when
the RNG output is well-formed), a key_hash equal to the SHA-256 hex digest
of the plaintext, and a key_prefix equal to the first 25 characters of the
plaintext followed by "...". -/
theorem generate_api_key_spec (sha256hex : String → String)
    (random_part : String) (key_type : APIKeyType)
    (_hlen : random_part.length = 64)
    (_hhex : random_part.toList.all isLowerHexDigit) :
    (generate_api_key sha256hex random_part key_type).full_key
        = "cortexdb_" ++ getTypePrefix key_type ++ "_" ++ random_part ∧
    (getTypePrefix key_type = "admin" ∨ getTypePrefix key_type = "live" ∨
      getTypePrefix key_type = "test") ∧
    (generate_api_key sha256hex random_part key_type).key_hash
        = sha256hex ((generate_api_key sha256hex random_part key_type).full_key) ∧
    GeneratedKey.key_prefix (generate_api_key sha256hex random_part key_type)
        = (generate_api_key sha256hex random_part key_type).full_key.take 25 ++ "..." := by
  refine ⟨rfl, ?_, rfl, rfl⟩
  cases key_type <;> simp [getTypePrefix]

set_option maxRecDepth 8192 in
/-- Witness for generate_api_key_spec at a concrete random part. -/
theorem generate_api_key_spec_witness :
    ("0123456789abcdef0123456789abcdef0123456789abcdef0123456789abcdef" : String).length = 64 ∧
    ("0123456789abcdef0123456789abcdef0123456789abcdef0123456789abcdef" : String).toList.all
      isLowerHexDigit = true ∧
    ((generate_api_key id
        "0123456789abcdef0123456789abcdef0123456789abcdef0123456789abcdef"
        APIKeyType.database).full_key
      = "cortexdb_" ++ getTypePrefix APIKeyType.database ++ "_"
          ++ "0123456789abcdef0123456789abcdef0123456789abcdef0123456789abcdef" ∧
    (getTypePrefix APIKeyType.database = "admin" ∨
      getTypePrefix APIKeyType.database = "live" ∨
      getTypePrefix APIKeyType.database = "test") ∧
    (generate_api_key id
        "0123456789abcdef0123456789abcdef0123456789abcdef0123456789abcdef"
        APIKeyType.database).key_hash
      = id ((generate_api_key id
          "0123456789abcdef0123456789abcdef0123456789abcdef0123456789abcdef"
          APIKeyType.database).full_key) ∧
    GeneratedKey.key_prefix (generate_api_key id
        "0123456789abcdef0123456789abcdef0123456789abcdef0123456789abcdef"
        APIKeyType.database)
      = (generate_api_key id
          "0123456789abcdef0123456789abcdef0123456789abcdef0123456789abcdef"
          APIKeyType.database).full_key.take 25 ++ "...") :=
  ⟨by decide, by decide,
    generate_api_key_spec id
      "0123456789abcdef0123456789abcdef0123456789abcdef0123456789abcdef"
      APIKeyType.database (by decide) (by decide)⟩

/-! ## Request limit bounds (gateway/models/record.py) -/

/-- Behaviour of a pydantic Field(ge, le) constraint (pydantic is outside
the repository; by its documented semantics a constrained field accepts the
supplied value unchanged when it lies in range and raises a validation
error otherwise; it never clamps). -/
def validateBoundedInt (ge le v : Int) : Except String Int :=
  if ge ≤ v ∧ v ≤ le then .ok v else .error "value out of range"

/-- SearchRequest.limit = Field(default 10, ge=1, le=100). -/
def searchRequestLimit (v : Int) : Except String Int := validateBoundedInt 1 100 v

/-- QueryRequest.limit = Field(default 100, ge=1, le=500). -/
def queryRequestLimit (v : Int) : Except String Int := validateBoundedInt 1 500 v

/-- C9 counterexample: a search request with limit 200 is not processed
with the nearest in-range limit 100; it is rejected with a validation
error (and likewise a query request with limit 501). -/
theorem limit_not_clamped :
    searchRequestLimit 200 ≠ Except.ok 100 ∧
    searchRequestLimit 200 = Except.error "value out of range" ∧
    queryRequestLimit 501 ≠ Except.ok 500 ∧
    queryRequestLimit 501 = Except.error "value out of range" := by
  refine ⟨by decide, by decide, by decide, by decide⟩

/-- C9 (amended): every accepted search limit lies in [1, 100] and every
accepted query limit in [1, 500], and the accepted value is used unchanged;
a request whose limit lies outside the range is rejected with a validation
error rather than clamped. -/
theorem limit_bounds (v : Int) :
    ((∃ l, searchRequestLimit v = Except.ok l) ↔ 1 ≤ v ∧ v ≤ 100) ∧
    (∀ l, searchRequestLimit v = Except.ok l → l = v ∧ 1 ≤ l ∧ l ≤ 100) ∧
    ((∃ l, queryRequestLimit v = Except.ok l) ↔ 1 ≤ v ∧ v ≤ 500) ∧
    (∀ l, queryRequestLimit v = Except.ok l → l = v ∧ 1 ≤ l ∧ l ≤ 500) := by
  unfold searchRequestLimit queryRequestLimit validateBoundedInt
  refine ⟨?_, ?_, ?_, ?_⟩
  · constructor
    · rintro ⟨l, hl⟩
      by_cases h : 1 ≤ v ∧ v ≤ 100
      · exact h
      · rw [if_neg h] at hl
        exact absurd hl (by simp)
    · intro h
      exact ⟨v, by rw [if_pos h]⟩
  · intro l hl
    by_cases h : 1 ≤ v ∧ v ≤ 100
    · rw [if_pos h] at hl
      cases hl
      exact ⟨rfl, h⟩
    · rw [if_neg h] at hl
      exact absurd hl (by simp)
  · constructor
    · rintro ⟨l, hl⟩
      by_cases h : 1 ≤ v ∧ v ≤ 500
      · exact h
      · rw [if_neg h] at hl
        exact absurd hl (by simp)
    · intro h
      exact ⟨v, by rw [if_pos h]⟩
  · intro l hl
    by_cases h : 1 ≤ v ∧ v ≤ 500
    · rw [if_pos h] at hl
      cases hl
      exact ⟨rfl, h⟩
    · rw [if_neg h] at hl
      exact absurd hl (by simp)

/-- Witness for limit_bounds at limit 42. -/
theorem limit_bounds_witness :
    ((∃ l, searchRequestLimit 42 = Except.ok l) ↔ 1 ≤ (42 : Int) ∧ (42 : Int) ≤ 100) ∧
    (∀ l, searchRequestLimit 42 = Except.ok l → l = 42 ∧ 1 ≤ l ∧ l ≤ 100) ∧
    ((∃ l, queryRequestLimit 42 = Except.ok l) ↔ 1 ≤ (42 : Int) ∧ (42 : Int) ≤ 500) ∧
    (∀ l, queryRequestLimit 42 = Except.ok l → l = 42 ∧ 1 ≤ l ∧ l ≤ 500) :=
  limit_bounds 42


/-! ## API key authentication cache (gateway/core/auth_cache.py and
gateway/middleware/auth.py) -/

/-- The part of the stored APIKey row that the authentication decision
reads: the enabled flag and the optional expiry instant.  Timestamps are
modelled as integers; only their ordering matters here. -/
structure APIKeyRow where
  id : Nat
  enabled : Bool
  expires_at : Option Int
deriving DecidableEq

/-- CachedAPIKey from auth_cache.py: the key plus the instant it was cached
and its time-to-live (300 seconds by default). -/
structure CachedAPIKey where
  api_key : APIKeyRow
  cached_at : Int
  ttl : Int
deriving DecidableEq

/-- APIKeyCache: the process-local dict from key hash to cached entry plus
the last-cleanup instant.  The Python dict is modelled as a function. -/
structure APIKeyCache where
  cache : String → Option CachedAPIKey
  last_cleanup : Int

/-- APIKeyCache._maybe_cleanup: at most once per 60 seconds, drop every
entry strictly older than its ttl. -/
def maybeCleanup (now : Int) (c : APIKeyCache) : APIKeyCache :=
  if now - c.last_cleanup < 60 then c
  else
    { cache := fun h =>
        match c.cache h with
        | none => none
        | some e => if now - e.cached_at > e.ttl then none else some e
      last_cleanup := now }

/-- APIKeyCache.get: run the periodic cleanup, then return the entry unless
it is strictly older than its ttl (in which case it is evicted). -/
def cacheGet (now : Int) (c : APIKeyCache) (key_hash : String) :
    Option APIKeyRow × APIKeyCache :=
  let c1 := maybeCleanup now c
  match c1.cache key_hash with
  | none => (none, c1)
  | some e =>
    if now - e.cached_at > e.ttl then
      (none, { c1 with cache := fun h => if h = key_hash then none else c1.cache h })
    else (some e.api_key, c1)

/-- APIKeyCache.set: store the entry with the given ttl at the current
instant. -/
def cacheSet (now : Int) (c : APIKeyCache) (key_hash : String)
    (k : APIKeyRow) (ttl : Int) : APIKeyCache :=
  { c with cache := fun h =>
      if h = key_hash then some { api_key := k, cached_at := now, ttl := ttl } else c.cache h }

/-- get_current_api_key from middleware/auth.py, after the header has been
extracted and hashed: consult the cache first and return a hit immediately;
on a miss read the row by hash, reject a missing, disabled or expired key,
and cache an accepted key with ttl 300. -/
def get_current_api_key (now : Int) (dbRow : String → Option APIKeyRow)
    (c : APIKeyCache) (key_hash : String) :
    Except String APIKeyRow × APIKeyCache :=
  match cacheGet now c key_hash with
  | (some k, c1) => (.ok k, c1)
  | (none, c1) =>
    match dbRow key_hash with
    | none => (.error "Invalid API key", c1)
    | some k =>
      if k.enabled = false then (.error "API key is disabled", c1)
      else
        match k.expires_at with
        | some t =>
          if t < now then (.error "API key has expired", c1)
          else (.ok k, cacheSet now c1 key_hash k 300)
        | none => (.ok k, cacheSet now c1 key_hash k 300)

/-- The behaviour claimed about the authentication cache: a fresh cache
entry is returned for every database state (so disabling, deleting or
expiring the key is not seen), an accepted key is cached with ttl 300, and
an entry strictly older than its ttl is no longer returned. -/
def AuthCacheHitSpec (now : Int) (c : APIKeyCache) (key_hash : String)
    (e : CachedAPIKey) : Prop :=
  (∀ dbRow : String → Option APIKeyRow,
    (get_current_api_key now dbRow c key_hash).1 = Except.ok e.api_key) ∧
  (∀ dbRow k, dbRow key_hash = some k → k.enabled = true → k.expires_at = none →
    ((get_current_api_key now dbRow { cache := fun _ => none, last_cleanup := now }
        key_hash).2.cache key_hash)
      = some { api_key := k, cached_at := now, ttl := 300 }) ∧
  (∀ (c2 : APIKeyCache) (e2 : CachedAPIKey), c2.cache key_hash = some e2 →
    now - e2.cached_at > e2.ttl →
    (cacheGet now c2 key_hash).1 = none)

/-- C10: on a cache hit, get_current_api_key returns the cached key without
re-reading the row or re-checking enabled and expires_at — the result is
the same for every database state, including one where the key is deleted,
disabled or past expiry — so the stale key keeps authenticating while
now - cached_at ≤ ttl; entries are stored with ttl 300 on the database
path; and once now - cached_at > ttl the cache no longer returns the
entry. -/
theorem auth_cache_hit_skips_checks (now : Int) (c : APIKeyCache)
    (key_hash : String) (e : CachedAPIKey)
    (hentry : c.cache key_hash = some e)
    (hfresh : now - e.cached_at ≤ e.ttl) :
    AuthCacheHitSpec now c key_hash e := by
  unfold AuthCacheHitSpec
  refine ⟨?_, ?_, ?_⟩
  · intro dbRow
    have hhit : (cacheGet now c key_hash).1 = some e.api_key := by
      unfold cacheGet maybeCleanup
      by_cases hcl : now - c.last_cleanup < 60
      · simp only [if_pos hcl, hentry]
        rw [if_neg (by omega)]
      · simp only [if_neg hcl, hentry]
        rw [if_neg (by omega)]
        simp only []
        rw [if_neg (by omega)]
    unfold get_current_api_key
    rcases hcg : cacheGet now c key_hash with ⟨r, c1⟩
    rw [hcg] at hhit
    simp only [] at hhit
    subst hhit
    rfl
  · intro dbRow k hdb hen hexp
    simp [get_current_api_key, cacheGet, maybeCleanup, cacheSet, hdb, hen, hexp]
  · intro c2 e2 h2 hex
    simp only [cacheGet, maybeCleanup]
    by_cases hcl : now - c2.last_cleanup < 60
    · simp only [if_pos hcl, h2]
      rw [if_pos (by omega)]
    · simp only [if_neg hcl, h2]
      rw [if_pos (by omega)]

/-- Witness for auth_cache_hit_skips_checks: a key cached 100 seconds ago
whose row is meanwhile disabled and already expired still authenticates. -/
theorem auth_cache_hit_skips_checks_witness :
    ((fun h => if h = "h1" then
        some { api_key := { id := 7, enabled := false, expires_at := some 0 },
               cached_at := 0, ttl := 300 } else none :
        String → Option CachedAPIKey) "h1"
      = some { api_key := { id := 7, enabled := false, expires_at := some 0 },
               cached_at := 0, ttl := 300 }) ∧
    ((100 : Int) - 0 ≤ 300) ∧
    AuthCacheHitSpec 100
      { cache := fun h => if h = "h1" then
          some { api_key := { id := 7, enabled := false, expires_at := some 0 },
                 cached_at := 0, ttl := 300 } else none,
        last_cleanup := 100 } "h1"
      { api_key := { id := 7, enabled := false, expires_at := some 0 },
        cached_at := 0, ttl := 300 } :=
  ⟨by decide, by decide,
    auth_cache_hit_skips_checks 100
      { cache := fun h => if h = "h1" then
          some { api_key := { id := 7, enabled := false, expires_at := some 0 },
                 cached_at := 0, ttl := 300 } else none,
        last_cleanup := 100 } "h1"
      { api_key := { id := 7, enabled := false, expires_at := some 0 },
        cached_at := 0, ttl := 300 }
      (by decide) (by decide)⟩


/-! ## Record update ordering (RecordService.update_record,
gateway/core/records.py) -/

/-- Store operations issued by update_record for a touched file field, in
the order the service awaits them. -/
inductive UpdEvent
  | uploadNew (field : String)
  | removeOldBlob (field : String)
  | deleteFieldPoints (field : String)
  | updateRow
  | upsertPoints
deriving DecidableEq

/-- One touched file field of an update: its name, the object path the
relational row currently references (None when the field was empty), and
whether the new upload yields vector points. -/
structure FileFieldUpdate where
  name : String
  old_path : Option String
  new_points : Bool
deriving DecidableEq

/-- The operations update_record issues for one touched file field inside
the per-field loop: _handle_file_field uploads the new blob, then the old
blob is removed when present, then the field's existing vector points are
deleted. -/
def fieldEvents (f : FileFieldUpdate) : List UpdEvent :=
  [UpdEvent.uploadNew f.name]
    ++ (match f.old_path with
        | some _ => [UpdEvent.removeOldBlob f.name]
        | none => [])
    ++ [UpdEvent.deleteFieldPoints f.name]

/-- The trace of store operations update_record issues for a list of
touched file fields: the per-field loop first, then one relational UPDATE
(postgres_updates is non-empty as soon as one file field was touched),
then one vector upsert when any new points were produced. -/
def updateTrace (fields : List FileFieldUpdate) : List UpdEvent :=
  (fields.flatMap fieldEvents)
    ++ (if fields.isEmpty then [] else [UpdEvent.updateRow])
    ++ (if fields.any (fun f => f.new_points) then [UpdEvent.upsertPoints] else [])

/-- C4 counterexample: updating the single file field "doc" (old blob
present, new upload vectorised) removes the old blob at position 1 of the
trace while the relational row is only updated at position 3 — the old
blob is deleted while the row still references it. -/
theorem update_removes_old_blob_before_row :
    updateTrace [{ name := "doc", old_path := some "c/r/old.pdf", new_points := true }]
      = [UpdEvent.uploadNew "doc", UpdEvent.removeOldBlob "doc",
         UpdEvent.deleteFieldPoints "doc", UpdEvent.updateRow, UpdEvent.upsertPoints] ∧
    (updateTrace [{ name := "doc", old_path := some "c/r/old.pdf", new_points := true }]).indexOf
        (UpdEvent.removeOldBlob "doc")
      < (updateTrace [{ name := "doc", old_path := some "c/r/old.pdf", new_points := true }]).indexOf
        UpdEvent.updateRow := by
  refine ⟨by decide, by decide⟩

/-- Position of the first occurrence of an event in the trace. -/
def evtPos (t : List UpdEvent) (e : UpdEvent) : Nat := t.indexOf e

/-- C4 (amended): during update_record of a file field that receives a new
upload, the old blob is removed after the new blob has been uploaded but
BEFORE the relational row is updated (and before the field's vector points
are deleted and the new points upserted); between the removal and the row
update the relational row still references the deleted blob. -/
theorem update_file_field_order (f : FileFieldUpdate) (rest : List FileFieldUpdate)
    (hold : f.old_path.isSome) :
    evtPos (updateTrace (f :: rest)) (UpdEvent.uploadNew f.name)
        < evtPos (updateTrace (f :: rest)) (UpdEvent.removeOldBlob f.name) ∧
    evtPos (updateTrace (f :: rest)) (UpdEvent.removeOldBlob f.name)
        < evtPos (updateTrace (f :: rest)) UpdEvent.updateRow := by
  obtain ⟨p, hp⟩ := Option.isSome_iff_exists.mp hold
  have htr : updateTrace (f :: rest)
      = UpdEvent.uploadNew f.name :: UpdEvent.removeOldBlob f.name ::
        UpdEvent.deleteFieldPoints f.name ::
        (rest.flatMap fieldEvents
          ++ [UpdEvent.updateRow]
          ++ (if (f :: rest).any (fun g => g.new_points)
              then [UpdEvent.upsertPoints] else [])) := by
    simp [updateTrace, fieldEvents, hp]
  rw [htr]
  unfold evtPos
  simp only [List.indexOf_cons]
  have e1 : (UpdEvent.uploadNew f.name == UpdEvent.removeOldBlob f.name) = false := by
    simp
  have e2 : (UpdEvent.removeOldBlob f.name == UpdEvent.removeOldBlob f.name) = true := by
    simp
  have e3 : (UpdEvent.uploadNew f.name == UpdEvent.updateRow) = false := by simp
  have e4 : (UpdEvent.removeOldBlob f.name == UpdEvent.updateRow) = false := by simp
  simp [e1, e2, e3, e4]

/-- A concrete touched file field used to witness the ordering theorem. -/
def sampleFileUpdate : FileFieldUpdate :=
  { name := "doc", old_path := some "c/r/old.pdf", new_points := true }

/-- Witness for update_file_field_order at a single touched file field. -/
theorem update_file_field_order_witness :
    sampleFileUpdate.old_path.isSome ∧
    (evtPos (updateTrace [sampleFileUpdate]) (UpdEvent.uploadNew sampleFileUpdate.name)
        < evtPos (updateTrace [sampleFileUpdate])
            (UpdEvent.removeOldBlob sampleFileUpdate.name) ∧
      evtPos (updateTrace [sampleFileUpdate])
          (UpdEvent.removeOldBlob sampleFileUpdate.name)
        < evtPos (updateTrace [sampleFileUpdate]) UpdEvent.updateRow) :=
  ⟨by decide, update_file_field_order sampleFileUpdate [] (by decide)⟩


/-! ## Record creation pipeline (RecordService.create_record,
gateway/core/records.py) -/

/-- Fault injection for the store calls create_record awaits: whether the
object-store upload of each file field succeeds, whether the relational
insert commits, whether the vector upsert succeeds, and whether each
best-effort removal succeeds. -/
structure CreateEnv where
  uploadOk : String → Bool
  insertOk : Bool
  upsertOk : Bool
  removeOk : String → Bool

/-- One file field of the create request: field name and uploaded
filename. -/
structure FileFieldReq where
  name : String
  filename : String
deriving DecidableEq

/-- Object path "{collection}/{record_id}/{filename}" built by
_handle_file_field. -/
def objectPath (collection record_id filename : String) : String :=
  collection ++ "/" ++ record_id ++ "/" ++ filename

/-- The state of the two stores create_record writes: present blob object
paths and present relational record ids. -/
structure Stores where
  blobs : List String
  rows : List String
deriving DecidableEq

/-- The upload part of _prepare_record: walk the file fields in schema
order, uploading each blob via _handle_file_field; an upload failure
raises out of _prepare_record immediately, leaving every blob already
uploaded in place (create_record's compensation block does not cover this
stage).  On success return the accumulated file_paths. -/
def uploadBlobs (env : CreateEnv) (collection record_id : String) :
    List FileFieldReq → List String → Option (List String) × List String
  | [], blobs => (some [], blobs)
  | f :: rest, blobs =>
    if env.uploadOk f.name then
      let path := objectPath collection record_id f.filename
      match uploadBlobs env collection record_id rest (blobs ++ [path]) with
      | (some paths, blobs2) => (some (path :: paths), blobs2)
      | (none, blobs2) => (none, blobs2)
    else (none, blobs)

/-- The except-block of create_record: for every uploaded object path, try
minio.remove_object, ignoring a removal failure (best-effort), then
re-raise. -/
def removeUploaded (env : CreateEnv) (blobs : List String)
    (paths : List String) : List String :=
  paths.foldl (fun bs p => if env.removeOk p then bs.erase p else bs) blobs

/-- create_record: _prepare_record uploads the blobs (failures there
propagate uncompensated), then one try-block inserts the relational row
and, when prepared.qdrant_points is non-empty, upserts the vector points;
any exception inside the try-block removes every uploaded blob best-effort
and re-raises.  The Bool result is True on success, False when the call
raises. -/
def create_record (env : CreateEnv) (collection record_id : String)
    (fileFields : List FileFieldReq) (has_points : Bool) (s : Stores) :
    Bool × Stores :=
  match uploadBlobs env collection record_id fileFields s.blobs with
  | (none, blobs1) => (false, { s with blobs := blobs1 })
  | (some paths, blobs1) =>
    if env.insertOk then
      let rows1 := s.rows ++ [record_id]
      if has_points && !env.upsertOk then
        (false, { blobs := removeUploaded env blobs1 paths, rows := rows1 })
      else (true, { blobs := blobs1, rows := rows1 })
    else
      (false, { blobs := removeUploaded env blobs1 paths, rows := s.rows })

theorem uploadBlobs_ok (env : CreateEnv) (c rid : String)
    (fields : List FileFieldReq) (blobs : List String)
    (h : ∀ f ∈ fields, env.uploadOk f.name = true) :
    uploadBlobs env c rid fields blobs
      = (some (fields.map (fun f => objectPath c rid f.filename)),
         blobs ++ fields.map (fun f => objectPath c rid f.filename)) := by
  induction fields generalizing blobs with
  | nil => simp [uploadBlobs]
  | cons f rest ih =>
    have hf := h f (List.mem_cons_self f rest)
    simp only [uploadBlobs, hf, if_true]
    rw [ih (blobs ++ [objectPath c rid f.filename])
      (fun g hg => h g (List.mem_cons_of_mem f hg))]
    simp

theorem uploadBlobs_fail (env : CreateEnv) (c rid : String)
    (pre : List FileFieldReq) (f : FileFieldReq) (post : List FileFieldReq)
    (blobs : List String)
    (hpre : ∀ g ∈ pre, env.uploadOk g.name = true)
    (hf : env.uploadOk f.name = false) :
    uploadBlobs env c rid (pre ++ f :: post) blobs
      = (none, blobs ++ pre.map (fun g => objectPath c rid g.filename)) := by
  induction pre generalizing blobs with
  | nil => simp [uploadBlobs, hf]
  | cons g rest ih =>
    have hg := hpre g (by simp)
    simp only [List.cons_append, uploadBlobs, hg, if_true, List.append_eq]
    rw [ih (blobs ++ [objectPath c rid g.filename])
      (fun x hx => hpre x (by simp [hx]))]
    simp

theorem removeUploaded_restores (env : CreateEnv) (blobs0 paths : List String)
    (hrm : ∀ p ∈ paths, env.removeOk p = true)
    (hnd : paths.Nodup)
    (hfresh : ∀ p ∈ paths, p ∉ blobs0) :
    removeUploaded env (blobs0 ++ paths) paths = blobs0 := by
  induction paths generalizing blobs0 with
  | nil => simp [removeUploaded]
  | cons p ps ih =>
    simp only [removeUploaded, List.foldl_cons]
    rw [if_pos (hrm p (by simp))]
    have herase : (blobs0 ++ p :: ps).erase p = blobs0 ++ ps := by
      rw [List.erase_append_right _ (hfresh p (by simp))]
      simp
    rw [herase]
    exact ih blobs0 (fun q hq => hrm q (by simp [hq])) hnd.of_cons
      (fun q hq => hfresh q (by simp [hq]))

/-- C1 (amended): if create_record fails while uploading a later blob, the
blobs already uploaded for the record are NOT deleted (compensation does
not cover the upload stage) though no relational row is created; if the
relational insert fails after all uploads succeeded, every uploaded blob
is deleted best-effort and no relational row remains; if the vector upsert
fails after the insert committed, every uploaded blob is likewise deleted
but the relational row remains. -/
theorem create_record_compensation (env : CreateEnv) (c rid : String)
    (fields : List FileFieldReq) (has_points : Bool) (s : Stores)
    (hfresh : ∀ f ∈ fields, objectPath c rid f.filename ∉ s.blobs)
    (hnodup : (fields.map (fun f => objectPath c rid f.filename)).Nodup)
    (hremove : ∀ f ∈ fields, env.removeOk (objectPath c rid f.filename) = true) :
    (∀ pre f post, fields = pre ++ f :: post →
      (∀ g ∈ pre, env.uploadOk g.name = true) → env.uploadOk f.name = false →
      create_record env c rid fields has_points s
        = (false, { blobs := s.blobs ++ pre.map (fun g => objectPath c rid g.filename),
                    rows := s.rows })) ∧
    ((∀ f ∈ fields, env.uploadOk f.name = true) → env.insertOk = false →
      create_record env c rid fields has_points s
        = (false, { blobs := s.blobs, rows := s.rows })) ∧
    ((∀ f ∈ fields, env.uploadOk f.name = true) → env.insertOk = true →
      has_points = true → env.upsertOk = false →
      create_record env c rid fields has_points s
        = (false, { blobs := s.blobs, rows := s.rows ++ [rid] })) := by
  have hpaths : ∀ bl, (∀ f ∈ fields, env.uploadOk f.name = true) →
      uploadBlobs env c rid fields bl
        = (some (fields.map (fun f => objectPath c rid f.filename)),
           bl ++ fields.map (fun f => objectPath c rid f.filename)) :=
    fun bl h => uploadBlobs_ok env c rid fields bl h
  have hrestore : removeUploaded env
      (s.blobs ++ fields.map (fun f => objectPath c rid f.filename))
      (fields.map (fun f => objectPath c rid f.filename)) = s.blobs := by
    refine removeUploaded_restores env s.blobs _ ?_ hnodup ?_
    · intro p hp
      obtain ⟨f, hf, rfl⟩ := List.mem_map.mp hp
      exact hremove f hf
    · intro p hp
      obtain ⟨f, hf, rfl⟩ := List.mem_map.mp hp
      exact hfresh f hf
  refine ⟨?_, ?_, ?_⟩
  · intro pre f post hsplit hpre hfail
    subst hsplit
    unfold create_record
    rw [uploadBlobs_fail env c rid pre f post s.blobs hpre hfail]
  · intro hup hins
    unfold create_record
    rw [hpaths s.blobs hup]
    simp only [hins, Bool.false_eq_true, if_false]
    rw [hrestore]
  · intro hup hins hpts hupsert
    unfold create_record
    rw [hpaths s.blobs hup]
    simp only [hins, if_true, hpts, hupsert, Bool.not_false, Bool.and_true, if_pos]
    rw [hrestore]

/-- Fault environment in which the upload of field "b" fails and every
other store call succeeds. -/
def envUploadFail : CreateEnv :=
  { uploadOk := fun n => n == "a", insertOk := true, upsertOk := true,
    removeOk := fun _ => true }

/-- C1 counterexample: with two file fields a and b where the upload of b
(the second blob) fails, create_record raises and inserts no relational
row, but the first blob c/r/fa is still present in the object store — it
is not deleted, contradicting the claimed best-effort cleanup of every
already-uploaded blob. -/
theorem create_upload_failure_leaks_blob :
    create_record envUploadFail "c" "r"
        [{ name := "a", filename := "fa" }, { name := "b", filename := "fb" }] true
        { blobs := [], rows := [] }
      = (false, { blobs := ["c/r/fa"], rows := [] }) ∧
    "c/r/fa" ∈ (create_record envUploadFail "c" "r"
        [{ name := "a", filename := "fa" }, { name := "b", filename := "fb" }] true
        { blobs := [], rows := [] }).2.blobs := by
  refine ⟨by decide, by decide⟩

/-- Witness for create_record_compensation, at the two-field request under
envUploadFail. -/
theorem create_record_compensation_witness :
    (∀ f ∈ [({ name := "a", filename := "fa" } : FileFieldReq),
        { name := "b", filename := "fb" }],
      objectPath "c" "r" f.filename ∉ (({ blobs := [], rows := [] } : Stores)).blobs) ∧
    (([({ name := "a", filename := "fa" } : FileFieldReq),
        { name := "b", filename := "fb" }].map
          (fun f => objectPath "c" "r" f.filename)).Nodup) ∧
    (∀ f ∈ [({ name := "a", filename := "fa" } : FileFieldReq),
        { name := "b", filename := "fb" }],
      envUploadFail.removeOk (objectPath "c" "r" f.filename) = true) ∧
    ((∀ pre f post,
        [({ name := "a", filename := "fa" } : FileFieldReq),
          { name := "b", filename := "fb" }] = pre ++ f :: post →
        (∀ g ∈ pre, envUploadFail.uploadOk g.name = true) →
        envUploadFail.uploadOk f.name = false →
        create_record envUploadFail "c" "r"
            [{ name := "a", filename := "fa" }, { name := "b", filename := "fb" }]
            true { blobs := [], rows := [] }
          = (false, { blobs := [] ++ pre.map (fun g => objectPath "c" "r" g.filename),
                      rows := [] })) ∧
      ((∀ f ∈ [({ name := "a", filename := "fa" } : FileFieldReq),
          { name := "b", filename := "fb" }], envUploadFail.uploadOk f.name = true) →
        envUploadFail.insertOk = false →
        create_record envUploadFail "c" "r"
            [{ name := "a", filename := "fa" }, { name := "b", filename := "fb" }]
            true { blobs := [], rows := [] }
          = (false, { blobs := [], rows := [] })) ∧
      ((∀ f ∈ [({ name := "a", filename := "fa" } : FileFieldReq),
          { name := "b", filename := "fb" }], envUploadFail.uploadOk f.name = true) →
        envUploadFail.insertOk = true → true = true → envUploadFail.upsertOk = false →
        create_record envUploadFail "c" "r"
            [{ name := "a", filename := "fa" }, { name := "b", filename := "fb" }]
            true { blobs := [], rows := [] }
          = (false, { blobs := [], rows := [] ++ ["r"] }))) :=
  ⟨by decide, by decide, fun f _ => rfl,
    create_record_compensation envUploadFail "c" "r"
      [{ name := "a", filename := "fa" }, { name := "b", filename := "fb" }] true
      { blobs := [], rows := [] } (by decide) (by decide) (fun f _ => rfl)⟩

/-- Fault environment in which only the vector upsert fails. -/
def envUpsertFail : CreateEnv :=
  { uploadOk := fun _ => true, insertOk := true, upsertOk := false,
    removeOk := fun _ => true }

/-- C2 counterexample: when the vector upsert fails after the relational
insert committed, the relational row r is preserved but the uploaded blob
c/r/fa IS removed from the object store — blob uploads are undone for a
post-commit vector-upsert failure, contradicting the claim that they never
are. -/
theorem create_upsert_failure_removes_blobs :
    create_record envUpsertFail "c" "r" [{ name := "a", filename := "fa" }] true
        { blobs := [], rows := [] }
      = (false, { blobs := [], rows := ["r"] }) ∧
    "c/r/fa" ∉ (create_record envUpsertFail "c" "r"
        [{ name := "a", filename := "fa" }] true
        { blobs := [], rows := [] }).2.blobs := by
  refine ⟨by decide, by decide⟩

/-- C2 (amended): during create_record, if the vector upsert fails after
the relational insert has committed, the relational record is preserved
and the error is re-raised (reported), but the blob uploads ARE undone
best-effort: the except-block covers the vector upsert as well, so blob
compensation runs also for a post-commit vector-upsert failure. -/
theorem create_record_upsert_failure_keeps_row (env : CreateEnv) (c rid : String)
    (fields : List FileFieldReq) (s : Stores)
    (hfresh : ∀ f ∈ fields, objectPath c rid f.filename ∉ s.blobs)
    (hnodup : (fields.map (fun f => objectPath c rid f.filename)).Nodup)
    (hremove : ∀ f ∈ fields, env.removeOk (objectPath c rid f.filename) = true)
    (hup : ∀ f ∈ fields, env.uploadOk f.name = true)
    (hins : env.insertOk = true) (hupsert : env.upsertOk = false) :
    create_record env c rid fields true s
      = (false, { blobs := s.blobs, rows := s.rows ++ [rid] }) ∧
    rid ∈ (create_record env c rid fields true s).2.rows ∧
    (create_record env c rid fields true s).1 = false := by
  have hmain :=
    (create_record_compensation env c rid fields true s hfresh hnodup hremove).2.2
      hup hins rfl hupsert
  refine ⟨hmain, ?_, ?_⟩
  · rw [hmain]
    simp
  · rw [hmain]

/-- Witness for create_record_upsert_failure_keeps_row under
envUpsertFail. -/
theorem create_record_upsert_failure_keeps_row_witness :
    (∀ f ∈ [({ name := "a", filename := "fa" } : FileFieldReq)],
      objectPath "c" "r" f.filename ∉ (({ blobs := [], rows := [] } : Stores)).blobs) ∧
    (([({ name := "a", filename := "fa" } : FileFieldReq)].map
        (fun f => objectPath "c" "r" f.filename)).Nodup) ∧
    (∀ f ∈ [({ name := "a", filename := "fa" } : FileFieldReq)],
      envUpsertFail.removeOk (objectPath "c" "r" f.filename) = true) ∧
    (∀ f ∈ [({ name := "a", filename := "fa" } : FileFieldReq)],
      envUpsertFail.uploadOk f.name = true) ∧
    envUpsertFail.insertOk = true ∧ envUpsertFail.upsertOk = false ∧
    (create_record envUpsertFail "c" "r" [{ name := "a", filename := "fa" }] true
        { blobs := [], rows := [] }
      = (false, { blobs := [], rows := [] ++ ["r"] }) ∧
    "r" ∈ (create_record envUpsertFail "c" "r" [{ name := "a", filename := "fa" }] true
        { blobs := [], rows := [] }).2.rows ∧
    (create_record envUpsertFail "c" "r" [{ name := "a", filename := "fa" }] true
        { blobs := [], rows := [] }).1 = false) :=
  ⟨by decide, by decide, fun f _ => rfl, fun f _ => rfl, rfl, rfl,
    create_record_upsert_failure_keeps_row envUpsertFail "c" "r"
      [{ name := "a", filename := "fa" }] { blobs := [], rows := [] }
      (by decide) (by decide) (fun f _ => rfl) (fun f _ => rfl) rfl rfl⟩


/-! ## Schema field validation (gateway/models/schema.py) -/

/-- FieldType from models/schema.py. -/
inductive FieldType
  | string | text | int | float | boolean | date | datetime | enum | array | file | json
deriving DecidableEq

/-- StoreLocation from models/schema.py. -/
inductive StoreLocation
  | postgres | qdrant | qdrant_payload | minio
deriving DecidableEq

/-- ExtractConfig from models/schema.py (only presence matters to the
field validators; a pydantic model instance is always truthy). -/
structure ExtractConfig where
  extract_text : Bool
  ocr_if_needed : Bool
  chunk_size : Option Int
  chunk_overlap : Option Int
deriving DecidableEq

/-- FieldDefinition from models/schema.py.  Values and defaults are List
[Any] / Any in the source; only their presence and emptiness matter to
validation, so they are modelled as strings. -/
inductive FieldDefinition where
  | mk (name : String) (type : FieldType)
       (required indexed unique filterable vectorize : Bool)
       (default : Option String) (values : Option (List String))
       (store_in : List StoreLocation)
       (schema : Option (List FieldDefinition))
       (extract_config : Option ExtractConfig)

def FieldDefinition.name : FieldDefinition → String
  | .mk n _ _ _ _ _ _ _ _ _ _ _ => n

def FieldDefinition.type : FieldDefinition → FieldType
  | .mk _ t _ _ _ _ _ _ _ _ _ _ => t

def FieldDefinition.schema : FieldDefinition → Option (List FieldDefinition)
  | .mk _ _ _ _ _ _ _ _ _ _ s _ => s

/-- The nested fields of an array field (empty for every other field). -/
def childFields (f : FieldDefinition) : List FieldDefinition :=
  (FieldDefinition.schema f).getD []

/-- The regular expression ^[a-zA-Z_][a-zA-Z0-9_]*$ used by validate_name
and validate_collection_name. -/
def validIdentifier (s : String) : Bool :=
  match s.toList with
  | [] => false
  | c :: rest => (c.isAlpha || c == '_') && rest.all (fun d => d.isAlphanum || d == '_')

/-- The complete pydantic validation of one FieldDefinition: the field
validators validate_name, ensure_store_non_empty and validate_enum_values,
the model validator validate_field, applied recursively to the nested
schema (pydantic validates nested models on construction).  Python
truthiness of an optional list is modelled by getD [] ≠ []. -/
def validateFieldDefinition : FieldDefinition → Bool
  | .mk name ty _req _idx uniq _filt vec _dflt values store schema extract =>
    validIdentifier name
    && !store.isEmpty
    && !(ty == .enum && (values.getD []).isEmpty)
    && !(ty != .enum && !(values.getD []).isEmpty)
    && !(vec && !(ty == .text || ty == .string || ty == .file))
    && (if ty == .array then !(schema.getD []).isEmpty else (schema.getD []).isEmpty)
    && !(ty != .file && extract.isSome)
    && !(uniq && !(ty == .string || ty == .int || ty == .float))
    && (match schema with
        | none => true
        | some l => l.attach.all (fun x => validateFieldDefinition x.1))
termination_by f => sizeOf f
decreasing_by
  have := List.sizeOf_lt_of_mem x.2
  simp at this ⊢
  omega

/-- _build_array_table from gateway/core/postgres.py, reduced to its
guard: deriving the child table of an array field raises ValueError when
any nested field is itself an array. -/
def build_array_table_guard (f : FieldDefinition) : Except String Unit :=
  if (childFields f).any (fun g => FieldDefinition.type g == .array)
  then .error "Nested arrays are not supported"
  else .ok ()

/-- A plain string leaf field. -/
def leafStringField (n : String) : FieldDefinition :=
  .mk n .string false false false false false none none [.postgres] none none

/-- An array field nested inside another array field's schema. -/
def innerArrayField : FieldDefinition :=
  .mk "inner" .array false false false false false none none [.postgres]
    (some [leafStringField "x"]) none

/-- The outer array field whose nested schema contains an array field. -/
def outerArrayField : FieldDefinition :=
  .mk "outer" .array false false false false false none none [.postgres]
    (some [innerArrayField]) none

theorem exists_nonempty_iff {α : Type} (o : Option (List α)) :
    (∃ vs, o = some vs ∧ vs ≠ []) ↔ (o.getD []) ≠ [] := by
  cases o <;> simp

theorem store_piece (store : List StoreLocation) :
    (!store.isEmpty) = true ↔ store ≠ [] := by
  cases store <;> simp

theorem enum_piece (ty : FieldType) (o : Option (List String)) :
    ((!(ty == FieldType.enum && (o.getD []).isEmpty)) = true ∧
     (!(ty != FieldType.enum && !(o.getD []).isEmpty)) = true) ↔
    ((∃ vs, o = some vs ∧ vs ≠ []) ↔ ty = FieldType.enum) := by
  rw [exists_nonempty_iff]
  by_cases h : ty = FieldType.enum <;> rcases ho : o.getD [] with _ | ⟨x, xs⟩ <;>
    simp [h, ho]

theorem vec_piece (ty : FieldType) (vec : Bool) :
    (!(vec && !(ty == FieldType.text || ty == FieldType.string || ty == FieldType.file)))
        = true ↔
    (vec = true → ty = FieldType.text ∨ ty = FieldType.string ∨ ty = FieldType.file) := by
  cases vec <;> simp [or_assoc]

theorem schema_piece (ty : FieldType) (o : Option (List FieldDefinition)) :
    ((if ty == FieldType.array then !(o.getD []).isEmpty else (o.getD []).isEmpty) = true) ↔
    ((∃ l, o = some l ∧ l ≠ []) ↔ ty = FieldType.array) := by
  rw [exists_nonempty_iff]
  by_cases h : ty = FieldType.array <;> rcases ho : o.getD [] with _ | ⟨x, xs⟩ <;>
    simp [h, ho]

theorem extract_piece (ty : FieldType) (e : Option ExtractConfig) :
    (!(ty != FieldType.file && e.isSome)) = true ↔
    (e.isSome = true → ty = FieldType.file) := by
  cases e <;> by_cases h : ty = FieldType.file <;> simp [h]

theorem unique_piece (ty : FieldType) (u : Bool) :
    (!(u && !(ty == FieldType.string || ty == FieldType.int || ty == FieldType.float)))
        = true ↔
    (u = true → ty = FieldType.string ∨ ty = FieldType.int ∨ ty = FieldType.float) := by
  cases u <;> simp [or_assoc]

/-- The field invariants enforced by one FieldDefinition's own validators
(the nested schema is handled separately): identifier name, non-empty
store_in, a non-empty values list exactly on enum fields, vectorize only
on text/string/file, a non-empty nested schema exactly on array fields,
extract_config only on file fields, unique only on string/int/float. -/
def FieldTopInvariants (f : FieldDefinition) : Prop :=
  match f with
  | .mk name ty _req _idx uniq _filt vec _dflt values store schema extract =>
    validIdentifier name = true ∧
    store ≠ [] ∧
    ((∃ vs, values = some vs ∧ vs ≠ []) ↔ ty = FieldType.enum) ∧
    (vec = true → ty = FieldType.text ∨ ty = FieldType.string ∨ ty = FieldType.file) ∧
    ((∃ l, schema = some l ∧ l ≠ []) ↔ ty = FieldType.array) ∧
    (extract.isSome = true → ty = FieldType.file) ∧
    (uniq = true → ty = FieldType.string ∨ ty = FieldType.int ∨ ty = FieldType.float)

/-- C7 (amended): pydantic validation of a field declaration accepts it
exactly when the declaration satisfies the per-field invariants AND every
nested field of an array schema validates recursively; a nested array
field is NOT rejected by schema validation (it only fails later, at child
table derivation — see build_array_table_guard and the counterexample). -/
theorem validate_field_iff (f : FieldDefinition) :
    validateFieldDefinition f = true ↔
      (FieldTopInvariants f ∧ ∀ g ∈ childFields f, validateFieldDefinition g = true) := by
  rcases f with ⟨name, ty, req, idx, uniq, filt, vec, dflt, values, store, schema, extract⟩
  rw [validateFieldDefinition.eq_def]
  dsimp only []
  have hchild : (match schema with
      | none => true
      | some l => l.attach.all (fun x => validateFieldDefinition x.1)) = true ↔
      (∀ g ∈ childFields (.mk name ty req idx uniq filt vec dflt values store schema extract),
        validateFieldDefinition g = true) := by
    cases schema with
    | none => simp [childFields, FieldDefinition.schema]
    | some l =>
      simp only [childFields, FieldDefinition.schema, Option.getD_some, List.all_eq_true]
      constructor
      · intro h g hg
        exact h ⟨g, hg⟩ (List.mem_attach l ⟨g, hg⟩)
      · intro h x _
        exact h x.1 x.2
  simp only [Bool.and_eq_true]
  rw [hchild]
  dsimp only [FieldTopInvariants]
  constructor
  · rintro ⟨⟨⟨⟨⟨⟨⟨⟨h1, h2⟩, h3⟩, h4⟩, h5⟩, h6⟩, h7⟩, h8⟩, hc⟩
    exact ⟨⟨h1, (store_piece store).mp h2, (enum_piece ty values).mp ⟨h3, h4⟩,
      (vec_piece ty vec).mp h5, (schema_piece ty schema).mp h6,
      (extract_piece ty extract).mp h7, (unique_piece ty uniq).mp h8⟩, hc⟩
  · rintro ⟨⟨b1, b2, b3, b4, b5, b6, b7⟩, hc⟩
    exact ⟨⟨⟨⟨⟨⟨⟨⟨b1, (store_piece store).mpr b2⟩, ((enum_piece ty values).mpr b3).1⟩,
      ((enum_piece ty values).mpr b3).2⟩, (vec_piece ty vec).mpr b4⟩,
      (schema_piece ty schema).mpr b5⟩, (extract_piece ty extract).mpr b6⟩,
      (unique_piece ty uniq).mpr b7⟩, hc⟩

/-- C7 counterexample: an array field nested inside another array field's
schema is NOT rejected by schema validation — the outer declaration passes
every pydantic validator — even though its nested schema contains an array
field; only the later child-table derivation raises "Nested arrays are not
supported". -/
theorem nested_array_passes_validation :
    validateFieldDefinition outerArrayField = true ∧
    FieldDefinition.type innerArrayField = FieldType.array ∧
    innerArrayField ∈ childFields outerArrayField ∧
    build_array_table_guard outerArrayField
      = Except.error "Nested arrays are not supported" := by
  refine ⟨?_, rfl, ?_, ?_⟩
  · simp [outerArrayField, innerArrayField, leafStringField, validateFieldDefinition,
      validIdentifier, childFields]
  · simp [childFields, outerArrayField, innerArrayField, FieldDefinition.schema]
  · simp [build_array_table_guard, childFields, outerArrayField, innerArrayField,
      FieldDefinition.schema, FieldDefinition.type]


/-! ## Vector point identity (records.py _prepare_record / update_record
plus qdrant upsert and delete-by-filter semantics) -/

/-- One stored vector point: the id plus the payload fields the identity
invariant concerns. -/
structure QPoint where
  id : String
  record_id : String
  field : String
  chunk_index : Nat
deriving DecidableEq

/-- The string "{record_id}:{field.name}:{idx}" fed to uuid.uuid5. -/
def pointName (record_id field : String) (i : Nat) : String :=
  record_id ++ ":" ++ field ++ ":" ++ toString i

/-- The deterministic point id uuidv5(NAMESPACE_DNS, pointName ...); the
uuid5 digest is Python stdlib, passed in as the parameter u5. -/
def pointId (u5 : String → String) (record_id field : String) (i : Nat) : String :=
  u5 (pointName record_id field i)

/-- The points built for one vectorised field that produced n chunks
(enumerate(vectors) gives chunk indices 0..n-1). -/
def fieldPoints (u5 : String → String) (rid field : String) (n : Nat) : List QPoint :=
  (List.range n).map (fun i =>
    { id := pointId u5 rid field i, record_id := rid, field := field, chunk_index := i })

/-- All points prepared for a record, given each vectorised field's chunk
count, in schema order. -/
def recordPoints (u5 : String → String) (rid : String)
    (fields : List (String × Nat)) : List QPoint :=
  fields.flatMap (fun fn => fieldPoints u5 rid fn.1 fn.2)

/-- Qdrant upsert semantics (store adapter): an upserted point replaces
any stored point carrying the same id. -/
def upsertPoints (store : List QPoint) (pts : List QPoint) : List QPoint :=
  store.filter (fun p => pts.all (fun q => q.id != p.id)) ++ pts

/-- qdrant delete_record_field: delete the points matching the payload
filter record_id=? AND field=?. -/
def deleteRecordField (store : List QPoint) (rid field : String) : List QPoint :=
  store.filter (fun p => !(p.record_id == rid && p.field == field))

/-- The vector write of create_record: one upsert of all prepared
points. -/
def createVectors (u5 : String → String) (store : List QPoint) (rid : String)
    (fields : List (String × Nat)) : List QPoint :=
  upsertPoints store (recordPoints u5 rid fields)

/-- The vector writes of update_record: per touched vectorised field a
delete_record_field during the loop, then one upsert of all new points. -/
def updateVectors (u5 : String → String) (store : List QPoint) (rid : String)
    (touched : List (String × Nat)) : List QPoint :=
  upsertPoints (touched.foldl (fun s fn => deleteRecordField s rid fn.1) store)
    (recordPoints u5 rid touched)

/-- The ids of the points stored for a record. -/
def recordIds (store : List QPoint) (rid : String) : List String :=
  (store.filter (fun p => p.record_id == rid)).map (fun p => p.id)

/-- The claimed id set: uuidv5 of "{rid}:{field}:{i}" for every vectorised
field and chunk index below its chunk count. -/
def targetIds (u5 : String → String) (rid : String)
    (fields : List (String × Nat)) : List String :=
  fields.flatMap (fun fn => (List.range fn.2).map (pointId u5 rid fn.1))

/-- The per-record, per-field id invariant before an update: every stored
point of the record belongs to a described field, and for each described
field the stored ids are exactly the deterministic ids of its chunk
count. -/
def InvRecord (u5 : String → String) (store : List QPoint) (rid : String)
    (d : List (String × Nat)) : Prop :=
  (∀ p ∈ store, p.record_id = rid → p.field ∈ d.map Prod.fst) ∧
  (∀ fn ∈ d,
    ((store.filter (fun p => p.record_id == rid && p.field == fn.1)).map
        (fun p => p.id)).toFinset
      = ((List.range fn.2).map (pointId u5 rid fn.1)).toFinset)

theorem mem_upsertPoints (store pts : List QPoint) (p : QPoint) :
    p ∈ upsertPoints store pts ↔
      (p ∈ store ∧ ∀ q ∈ pts, q.id ≠ p.id) ∨ p ∈ pts := by
  simp [upsertPoints, List.mem_filter, List.all_eq_true]

theorem mem_recordPoints (u5 : String → String) (rid : String)
    (fields : List (String × Nat)) (p : QPoint) :
    p ∈ recordPoints u5 rid fields ↔
      ∃ fn ∈ fields, ∃ i < fn.2,
        p = { id := pointId u5 rid fn.1 i, record_id := rid,
              field := fn.1, chunk_index := i } := by
  simp only [recordPoints, fieldPoints, List.mem_flatMap, List.mem_map, List.mem_range]
  constructor
  · rintro ⟨fn, hfn, i, hi, rfl⟩
    exact ⟨fn, hfn, i, hi, rfl⟩
  · rintro ⟨fn, hfn, i, hi, rfl⟩
    exact ⟨fn, hfn, i, hi, rfl⟩

theorem mem_deleteFold (touched : List (String × Nat)) (store : List QPoint)
    (rid : String) (p : QPoint) :
    p ∈ touched.foldl (fun s fn => deleteRecordField s rid fn.1) store ↔
      (p ∈ store ∧ ¬(p.record_id = rid ∧ p.field ∈ touched.map Prod.fst)) := by
  induction touched generalizing store with
  | nil => simp
  | cons fn rest ih =>
    rw [List.foldl_cons, ih]
    simp only [deleteRecordField, List.mem_filter, List.map_cons, List.mem_cons]
    constructor
    · rintro ⟨⟨hp, hb⟩, hrest⟩
      refine ⟨hp, ?_⟩
      rintro ⟨hrid, hf | hf⟩
      · simp only [Bool.not_eq_true', Bool.and_eq_false_iff, beq_eq_false_iff_ne] at hb
        rcases hb with hb | hb
        · exact hb hrid
        · exact hb hf
      · exact hrest ⟨hrid, hf⟩
    · rintro ⟨hp, hn⟩
      refine ⟨⟨hp, ?_⟩, ?_⟩
      · simp only [Bool.not_eq_true', Bool.and_eq_false_iff, beq_eq_false_iff_ne]
        by_cases hrid : p.record_id = rid
        · right
          intro hf
          exact hn ⟨hrid, Or.inl hf⟩
        · left
          exact hrid
      · rintro ⟨hrid, hf⟩
        exact hn ⟨hrid, Or.inr hf⟩

theorem mem_targetIds (u5 : String → String) (rid : String)
    (fields : List (String × Nat)) (x : String) :
    x ∈ targetIds u5 rid fields ↔
      ∃ fn ∈ fields, ∃ i < fn.2, x = pointId u5 rid fn.1 i := by
  simp [targetIds, List.mem_flatMap, List.mem_map, List.mem_range, eq_comm]

theorem mem_recordIds (store : List QPoint) (rid : String) (x : String) :
    x ∈ recordIds store rid ↔ ∃ p ∈ store, p.record_id = rid ∧ p.id = x := by
  simp only [recordIds, List.mem_map, List.mem_filter, beq_iff_eq]
  constructor
  · rintro ⟨p, ⟨hp, hr⟩, hx⟩
    exact ⟨p, hp, hr, hx⟩
  · rintro ⟨p, hp, hr, hx⟩
    exact ⟨p, ⟨hp, hr⟩, hx⟩

end CortexDB

namespace CortexDB

/-- The fields described after an update: the touched fields with their new
chunk counts, then the untouched part of the old description. -/
def updatedDescription (touched d : List (String × Nat)) : List (String × Nat) :=
  touched ++ d.filter (fun fn => decide (fn.1 ∉ touched.map Prod.fst))

/-- C3: after create_record (fresh record id) or update_record (store
satisfying the per-field invariant), the set of vector-point ids stored
for the record equals { u5("{rid}:{field}:{i}") | field vectorised,
i < nchunks(field) } for the resulting per-field chunk counts; no point of
the record carries any other id.  u5 stands for uuidv5 in the DNS
namespace; hinj records that it is collision-free on the finitely many
names involved. -/
theorem vector_point_ids (u5 : String → String) (rid : String)
    (fields : List (String × Nat)) (store₀ store₁ : List QPoint)
    (d touched : List (String × Nat))
    (hfresh : ∀ p ∈ store₀, p.record_id ≠ rid)
    (hInv : InvRecord u5 store₁ rid d)
    (hinj : ∀ fn ∈ touched ++ d, ∀ fm ∈ touched ++ d, ∀ i < fn.2, ∀ j < fm.2,
      pointId u5 rid fn.1 i = pointId u5 rid fm.1 j → fn.1 = fm.1 ∧ i = j) :
    (recordIds (createVectors u5 store₀ rid fields) rid).toFinset
        = (targetIds u5 rid fields).toFinset ∧
    (recordIds (updateVectors u5 store₁ rid touched) rid).toFinset
        = (targetIds u5 rid (updatedDescription touched d)).toFinset := by
  obtain ⟨hcov, hids⟩ := hInv
  constructor
  · apply Finset.ext
    intro x
    simp only [List.mem_toFinset]
    rw [mem_recordIds, mem_targetIds]
    constructor
    · rintro ⟨p, hp, hrid, rfl⟩
      rw [createVectors, mem_upsertPoints] at hp
      rcases hp with ⟨hps, -⟩ | hpn
      · exact absurd hrid (hfresh p hps)
      · rw [mem_recordPoints] at hpn
        obtain ⟨fn, hfn, i, hi, rfl⟩ := hpn
        exact ⟨fn, hfn, i, hi, rfl⟩
    · rintro ⟨fn, hfn, i, hi, rfl⟩
      refine ⟨⟨pointId u5 rid fn.1 i, rid, fn.1, i⟩, ?_, rfl, rfl⟩
      rw [createVectors, mem_upsertPoints]
      right
      rw [mem_recordPoints]
      exact ⟨fn, hfn, i, hi, rfl⟩
  · apply Finset.ext
    intro x
    simp only [List.mem_toFinset]
    rw [mem_recordIds, mem_targetIds]
    constructor
    · rintro ⟨p, hp, hrid, rfl⟩
      rw [updateVectors, mem_upsertPoints] at hp
      rcases hp with ⟨hps, hnoq⟩ | hpn
      · rw [mem_deleteFold] at hps
        obtain ⟨hp1, hnt⟩ := hps
        have hnotin : p.field ∉ touched.map Prod.fst := fun hmem => hnt ⟨hrid, hmem⟩
        have hfld : p.field ∈ d.map Prod.fst := hcov p hp1 hrid
        obtain ⟨fn, hfn, hfe⟩ := List.mem_map.mp hfld
        have hmem : p.id ∈ ((store₁.filter
            (fun q => q.record_id == rid && q.field == fn.1)).map
              (fun q => q.id)).toFinset := by
          rw [List.mem_toFinset, List.mem_map]
          refine ⟨p, List.mem_filter.mpr ⟨hp1, ?_⟩, rfl⟩
          simp [hrid, hfe]
        rw [hids fn hfn, List.mem_toFinset, List.mem_map] at hmem
        obtain ⟨i, hi, hx⟩ := hmem
        rw [List.mem_range] at hi
        refine ⟨fn, ?_, i, hi, hx.symm⟩
        rw [updatedDescription, List.mem_append]
        right
        rw [List.mem_filter]
        refine ⟨hfn, ?_⟩
        rw [decide_eq_true_iff]
        rw [hfe]
        exact hnotin
      · rw [mem_recordPoints] at hpn
        obtain ⟨fn, hfn, i, hi, rfl⟩ := hpn
        refine ⟨fn, ?_, i, hi, rfl⟩
        rw [updatedDescription, List.mem_append]
        exact Or.inl hfn
    · rintro ⟨fn, hfnu, i, hi, rfl⟩
      rw [updatedDescription, List.mem_append] at hfnu
      rcases hfnu with hft | hfu
      · refine ⟨⟨pointId u5 rid fn.1 i, rid, fn.1, i⟩, ?_, rfl, rfl⟩
        rw [updateVectors, mem_upsertPoints]
        right
        rw [mem_recordPoints]
        exact ⟨fn, hft, i, hi, rfl⟩
      · rw [List.mem_filter, decide_eq_true_iff] at hfu
        obtain ⟨hfd, hfnot⟩ := hfu
        have hmem : pointId u5 rid fn.1 i
            ∈ ((List.range fn.2).map (pointId u5 rid fn.1)).toFinset := by
          rw [List.mem_toFinset, List.mem_map]
          exact ⟨i, List.mem_range.mpr hi, rfl⟩
        rw [← hids fn hfd, List.mem_toFinset, List.mem_map] at hmem
        obtain ⟨p, hpf, hpid⟩ := hmem
        rw [List.mem_filter] at hpf
        obtain ⟨hp1, hpb⟩ := hpf
        have hprid : p.record_id = rid := by
          have := hpb
          simp only [Bool.and_eq_true, beq_iff_eq] at this
          exact this.1
        have hpfield : p.field = fn.1 := by
          have := hpb
          simp only [Bool.and_eq_true, beq_iff_eq] at this
          exact this.2
        refine ⟨p, ?_, hprid, hpid⟩
        rw [updateVectors, mem_upsertPoints]
        left
        constructor
        · rw [mem_deleteFold]
          refine ⟨hp1, ?_⟩
          rintro ⟨-, hmemt⟩
          rw [hpfield] at hmemt
          exact hfnot hmemt
        · intro q hq
          rw [mem_recordPoints] at hq
          obtain ⟨fm, hfm, j, hj, rfl⟩ := hq
          intro hqid
          rw [hpid] at hqid
          have := hinj fm (List.mem_append.mpr (Or.inl hfm)) fn
            (List.mem_append.mpr (Or.inr hfd)) j hj i hi hqid
          exact hfnot (List.mem_map.mpr ⟨fm, hfm, this.1⟩)

end CortexDB

namespace CortexDB

/-- A stored state for the witness: record r with field content at two
chunks, ids already deterministic. -/
def samplePointsStore : List QPoint :=
  [⟨"r:content:0", "r", "content", 0⟩, ⟨"r:content:1", "r", "content", 1⟩]

/-- Witness for vector_point_ids: a fresh create of field content with two
chunks, and an update shrinking content to one chunk, with the identity
standing in for uuid5. -/
theorem vector_point_ids_witness :
    (∀ p ∈ ([] : List QPoint), p.record_id ≠ "r") ∧
    InvRecord id samplePointsStore "r" [("content", 2)] ∧
    (∀ fn ∈ [("content", 1)] ++ [("content", 2)],
      ∀ fm ∈ [("content", 1)] ++ [("content", 2)],
      ∀ i < fn.2, ∀ j < fm.2,
      pointId id "r" fn.1 i = pointId id "r" fm.1 j → fn.1 = fm.1 ∧ i = j) ∧
    ((recordIds (createVectors id [] "r" [("content", 2)]) "r").toFinset
        = (targetIds id "r" [("content", 2)]).toFinset ∧
      (recordIds (updateVectors id samplePointsStore "r" [("content", 1)]) "r").toFinset
        = (targetIds id "r"
            (updatedDescription [("content", 1)] [("content", 2)])).toFinset) :=
  ⟨by decide, ⟨by decide, by decide⟩, by decide,
    vector_point_ids id "r" [("content", 2)] [] samplePointsStore
      [("content", 2)] [("content", 1)] (by decide) ⟨by decide, by decide⟩ (by decide)⟩


/-! ## Hybrid search (SearchService.hybrid_search, gateway/core/search.py) -/

/-- A scored point returned by the vector search with the payload keys the
aggregation reads.  Scores enter only through their ordering, so the float
scores are modelled as integers.  A missing record_id payload value
(falsy in Python) is modelled as the empty string. -/
structure SPoint where
  record_id : String
  field : String
  chunk_index : Nat
  text : String
  score : Int
deriving DecidableEq

/-- One highlight entry: field, text, chunk_index, score of one point. -/
structure Highlight where
  field : String
  text : String
  chunk_index : Nat
  score : Int
deriving DecidableEq

/-- The highlight built from one point. -/
def pointHighlight (p : SPoint) : Highlight :=
  { field := p.field, text := p.text, chunk_index := p.chunk_index, score := p.score }

/-- One aggregation entry of the insertion-ordered dict: record id,
running maximal score, collected highlights. -/
structure AggEntry where
  record_id : String
  score : Int
  highlights : List Highlight
deriving DecidableEq

/-- The entry setdefault creates for a record's first point (its score,
then immediately max-ed with itself, and the point as first highlight). -/
def newEntry (p : SPoint) : AggEntry :=
  { record_id := p.record_id, score := p.score, highlights := [pointHighlight p] }

/-- Folding one more point of a record into its existing entry: the score
becomes the maximum, the point is appended to the highlights. -/
def bumpEntry (e : AggEntry) (p : SPoint) : AggEntry :=
  { e with score := max e.score p.score,
           highlights := e.highlights ++ [pointHighlight p] }

/-- Processing of one point by the aggregation loop: skip a falsy
record_id; setdefault the entry (insertion order preserved), raise its
score to the maximum and append the point as a highlight. -/
def addPoint (acc : List AggEntry) (p : SPoint) : List AggEntry :=
  if p.record_id = "" then acc
  else if acc.any (fun e => e.record_id == p.record_id) then
    acc.map (fun e => if e.record_id == p.record_id then bumpEntry e p else e)
  else acc ++ [newEntry p]

/-- The aggregation loop over all returned points. -/
def aggregate (pts : List SPoint) : List AggEntry := pts.foldl addPoint []

/-- What the aggregation computes for one record over the points in seen:
its entry carries the maximal matching score and all matching points as
highlights, in encounter order. -/
def entrySpec (seen : List SPoint) (rid : String) (e : AggEntry) : Prop :=
  e.record_id = rid ∧
  (∃ p ∈ seen, p.record_id = rid ∧ p.score = e.score) ∧
  (∀ p ∈ seen, p.record_id = rid → p.score ≤ e.score) ∧
  e.highlights = (seen.filter (fun p => p.record_id == rid)).map pointHighlight

/-- Invariant of the aggregation loop. -/
def aggInv (acc : List AggEntry) (seen : List SPoint) : Prop :=
  ∀ rid : String, rid ≠ "" →
    (match acc.find? (fun e => e.record_id == rid) with
     | none => ∀ p ∈ seen, p.record_id ≠ rid
     | some e => entrySpec seen rid e)

theorem nomatch_extend (seen : List SPoint) (rid : String) (p : SPoint)
    (hne : p.record_id ≠ rid) (h : ∀ q ∈ seen, q.record_id ≠ rid) :
    ∀ q ∈ seen ++ [p], q.record_id ≠ rid := by
  intro q hq
  rcases List.mem_append.mp hq with hq | hq
  · exact h q hq
  · rw [List.mem_singleton.mp hq]
    exact hne

theorem entrySpec_extend_nomatch (seen : List SPoint) (rid : String)
    (e : AggEntry) (p : SPoint) (hne : p.record_id ≠ rid)
    (h : entrySpec seen rid e) : entrySpec (seen ++ [p]) rid e := by
  obtain ⟨h1, ⟨w, hw, hw2⟩, h3, h4⟩ := h
  refine ⟨h1, ⟨w, List.mem_append.mpr (Or.inl hw), hw2⟩, ?_, ?_⟩
  · intro q hq hqr
    rcases List.mem_append.mp hq with hq | hq
    · exact h3 q hq hqr
    · rw [List.mem_singleton.mp hq] at hqr
      exact absurd hqr hne
  · rw [List.filter_append, h4]
    have hbe : (p.record_id == rid) = false := by
      rw [beq_eq_false_iff_ne]
      exact hne
    have : List.filter (fun q => q.record_id == rid) [p] = [] := by
      simp [hbe]
    rw [this, List.append_nil]

theorem find?_map_preserve (g : AggEntry → AggEntry)
    (hg : ∀ e, (g e).record_id = e.record_id) (acc : List AggEntry) (rid : String) :
    (acc.map g).find? (fun e => e.record_id == rid)
      = (acc.find? (fun e => e.record_id == rid)).map g := by
  have hcomp : ((fun e : AggEntry => e.record_id == rid) ∘ g)
      = (fun e : AggEntry => e.record_id == rid) := by
    funext e
    simp [Function.comp, hg e]
  rw [List.find?_map, hcomp]

theorem aggInv_nil : aggInv [] [] := by
  intro rid _
  simp

theorem aggInv_step (acc : List AggEntry) (seen : List SPoint) (p : SPoint)
    (h : aggInv acc seen) : aggInv (addPoint acc p) (seen ++ [p]) := by
  intro rid hrid
  by_cases hpe : p.record_id = ""
  · rw [addPoint, if_pos hpe]
    have hne : p.record_id ≠ rid := by
      rw [hpe]
      exact fun hc => hrid hc.symm
    cases hf : acc.find? (fun e => e.record_id == rid) with
    | none =>
      have hn := h rid hrid
      rw [hf] at hn
      have hn : ∀ q ∈ seen, q.record_id ≠ rid := hn
      show ∀ q ∈ seen ++ [p], q.record_id ≠ rid
      exact nomatch_extend seen rid p hne hn
    | some e =>
      have hs := h rid hrid
      rw [hf] at hs
      have hs : entrySpec seen rid e := hs
      show entrySpec (seen ++ [p]) rid e
      exact entrySpec_extend_nomatch seen rid e p hne hs
  · rw [addPoint, if_neg hpe]
    by_cases hany : acc.any (fun e => e.record_id == p.record_id)
    · rw [if_pos hany]
      have hgpres : ∀ e : AggEntry,
          ((fun e : AggEntry =>
              if e.record_id == p.record_id then bumpEntry e p else e) e).record_id
            = e.record_id := by
        intro e
        dsimp only []
        split <;> rfl
      rw [find?_map_preserve _ hgpres acc rid]
      by_cases hr : rid = p.record_id
      · obtain ⟨e0, he0⟩ : ∃ e0, acc.find? (fun e => e.record_id == rid) = some e0 := by
          rw [← Option.isSome_iff_exists, List.find?_isSome]
          obtain ⟨x, hx, hxp⟩ := List.any_eq_true.mp hany
          refine ⟨x, hx, ?_⟩
          rw [hr]
          exact hxp
        have hspec0 := h rid hrid
        rw [he0] at hspec0
        have hspec : entrySpec seen rid e0 := hspec0
        rw [he0]
        have he0r : (e0.record_id == p.record_id) = true := by
          rw [beq_iff_eq, hspec.1]
          exact hr
        show entrySpec (seen ++ [p]) rid
          (if e0.record_id == p.record_id then bumpEntry e0 p else e0)
        rw [if_pos he0r]
        obtain ⟨h1, ⟨w, hw, hw2⟩, h3, h4⟩ := hspec
        refine ⟨h1, ?_, ?_, ?_⟩
        · by_cases hle : p.score ≤ e0.score
          · refine ⟨w, List.mem_append.mpr (Or.inl hw), hw2.1, ?_⟩
            show w.score = max e0.score p.score
            rw [hw2.2, max_eq_left hle]
          · push_neg at hle
            refine ⟨p, List.mem_append.mpr (Or.inr (List.mem_singleton.mpr rfl)),
              hr.symm, ?_⟩
            show p.score = max e0.score p.score
            rw [max_eq_right (le_of_lt hle)]
        · intro q hq hqr
          rcases List.mem_append.mp hq with hq | hq
          · exact le_trans (h3 q hq hqr) (le_max_left _ _)
          · rw [List.mem_singleton.mp hq]
            exact le_max_right _ _
        · show e0.highlights ++ [pointHighlight p]
            = ((seen ++ [p]).filter (fun q => q.record_id == rid)).map pointHighlight
          rw [List.filter_append, h4]
          have hpm : (p.record_id == rid) = true := by
            rw [beq_iff_eq]
            exact hr.symm
          have hps : List.filter (fun q => q.record_id == rid) [p] = [p] := by
            simp [hpm]
          rw [hps, List.map_append]
          rfl
      · cases hf : acc.find? (fun e => e.record_id == rid) with
        | none =>
          have hn := h rid hrid
          rw [hf] at hn
          have hn : ∀ q ∈ seen, q.record_id ≠ rid := hn
          show ∀ q ∈ seen ++ [p], q.record_id ≠ rid
          exact nomatch_extend seen rid p (fun hc => hr hc.symm) hn
        | some e0 =>
          have hs := h rid hrid
          rw [hf] at hs
          have hs : entrySpec seen rid e0 := hs
          have hne : (e0.record_id == p.record_id) = false := by
            rw [beq_eq_false_iff_ne, hs.1]
            exact fun hc => hr hc
          show entrySpec (seen ++ [p]) rid
            (if e0.record_id == p.record_id then bumpEntry e0 p else e0)
          rw [if_neg (by rw [hne]; exact Bool.false_ne_true)]
          exact entrySpec_extend_nomatch seen rid e0 p (fun hc => hr hc.symm) hs
    · rw [if_neg hany]
      rw [List.find?_append]
      have hnone : acc.find? (fun e => e.record_id == p.record_id) = none := by
        rw [List.find?_eq_none]
        intro x hx hxp
        exact hany (List.any_eq_true.mpr ⟨x, hx, hxp⟩)
      by_cases hr : rid = p.record_id
      · have hacc : acc.find? (fun e => e.record_id == rid) = none := by
          rw [hr, hnone]
        have hm : ((newEntry p).record_id == rid) = true := by
          show (p.record_id == rid) = true
          rw [beq_iff_eq]
          exact hr.symm
        have hfind : List.find? (fun e : AggEntry => e.record_id == rid) [newEntry p]
            = some (newEntry p) := by
          simp [List.find?_cons, hm]
        rw [hacc, hfind]
        have hn := h rid hrid
        rw [hacc] at hn
        have hn : ∀ q ∈ seen, q.record_id ≠ rid := hn
        show entrySpec (seen ++ [p]) rid (newEntry p)
        refine ⟨hr.symm, ?_, ?_, ?_⟩
        · exact ⟨p, List.mem_append.mpr (Or.inr (List.mem_singleton.mpr rfl)),
            hr.symm, rfl⟩
        · intro q hq hqr
          rcases List.mem_append.mp hq with hq | hq
          · exact absurd hqr (hn q hq)
          · rw [List.mem_singleton.mp hq]
            exact le_refl _
        · show [pointHighlight p]
            = ((seen ++ [p]).filter (fun q => q.record_id == rid)).map pointHighlight
          rw [List.filter_append]
          have hsn : seen.filter (fun q => q.record_id == rid) = [] := by
            rw [List.filter_eq_nil_iff]
            intro q hq
            rw [beq_iff_eq]
            exact hn q hq
          have hpm : (p.record_id == rid) = true := by
            rw [beq_iff_eq]
            exact hr.symm
          have hps : List.filter (fun q => q.record_id == rid) [p] = [p] := by
            simp [hpm]
          rw [hsn, hps, List.nil_append]
          rfl
      · have hm : ((newEntry p).record_id == rid) = false := by
          show (p.record_id == rid) = false
          rw [beq_eq_false_iff_ne]
          exact fun hc => hr hc.symm
        have hfind : List.find? (fun e : AggEntry => e.record_id == rid) [newEntry p]
            = none := by
          simp [List.find?_cons, hm]
        rw [hfind, Option.or_none]
        cases hf : acc.find? (fun e => e.record_id == rid) with
        | none =>
          have hn := h rid hrid
          rw [hf] at hn
          have hn : ∀ q ∈ seen, q.record_id ≠ rid := hn
          show ∀ q ∈ seen ++ [p], q.record_id ≠ rid
          exact nomatch_extend seen rid p (fun hc => hr hc.symm) hn
        | some e0 =>
          have hs := h rid hrid
          rw [hf] at hs
          have hs : entrySpec seen rid e0 := hs
          show entrySpec (seen ++ [p]) rid e0
          exact entrySpec_extend_nomatch seen rid e0 p (fun hc => hr hc.symm) hs

end CortexDB

namespace CortexDB

/-- The aggregation of a full point list satisfies the loop invariant. -/
theorem aggregate_inv (pts : List SPoint) : aggInv (aggregate pts) pts := by
  induction pts using List.reverseRecOn with
  | nil => exact aggInv_nil
  | append_singleton xs x ih =>
    show aggInv (List.foldl addPoint [] (xs ++ [x])) (xs ++ [x])
    rw [List.foldl_append, List.foldl_cons, List.foldl_nil]
    exact aggInv_step _ xs x ih

/-- The aggregated entries carry pairwise distinct, non-empty record
ids (dict keys are unique, falsy ids are skipped). -/
theorem aggregate_keys (pts : List SPoint) :
    ((aggregate pts).map (fun e => e.record_id)).Nodup ∧
    ∀ e ∈ aggregate pts, e.record_id ≠ "" := by
  have step : ∀ (acc : List AggEntry) (p : SPoint),
      ((acc.map (fun e => e.record_id)).Nodup ∧ ∀ e ∈ acc, e.record_id ≠ "") →
      (((addPoint acc p).map (fun e => e.record_id)).Nodup ∧
        ∀ e ∈ addPoint acc p, e.record_id ≠ "") := by
    intro acc p ⟨hnd, hne⟩
    rw [addPoint]
    by_cases hpe : p.record_id = ""
    · rw [if_pos hpe]
      exact ⟨hnd, hne⟩
    · rw [if_neg hpe]
      by_cases hany : acc.any (fun e => e.record_id == p.record_id)
      · rw [if_pos hany]
        have hkeys : ((acc.map (fun e =>
            if e.record_id == p.record_id then bumpEntry e p else e)).map
              (fun e => e.record_id)) = acc.map (fun e => e.record_id) := by
          rw [List.map_map]
          apply List.map_congr_left
          intro e _
          simp only [Function.comp]
          split <;> rfl
        constructor
        · rw [hkeys]
          exact hnd
        · intro e he
          obtain ⟨e0, he0, rfl⟩ := List.mem_map.mp he
          have : ((if e0.record_id == p.record_id then bumpEntry e0 p
              else e0)).record_id = e0.record_id := by
            split <;> rfl
          rw [this]
          exact hne e0 he0
      · rw [if_neg hany]
        constructor
        · rw [List.map_append]
          rw [List.nodup_append]
          refine ⟨hnd, List.nodup_singleton _, ?_⟩
          intro k hk hk2
          obtain ⟨e0, he0, rfl⟩ := List.mem_map.mp hk
          have : (newEntry p).record_id ∈ [(newEntry p).record_id] := List.mem_singleton.mpr rfl
          rw [List.mem_map] at hk2
          obtain ⟨x, hx, hxe⟩ := hk2
          rw [List.mem_singleton.mp hx] at hxe
          have hxe : e0.record_id = p.record_id := hxe.symm
          apply hany
          apply List.any_eq_true.mpr
          refine ⟨e0, he0, ?_⟩
          rw [beq_iff_eq]
          exact hxe
        · intro e he
          rcases List.mem_append.mp he with he | he
          · exact hne e he
          · rw [List.mem_singleton.mp he]
            exact hpe
  induction pts using List.reverseRecOn with
  | nil => exact ⟨List.nodup_nil, by simp [aggregate]⟩
  | append_singleton xs x ih =>
    show ((List.foldl addPoint [] (xs ++ [x])).map (fun e => e.record_id)).Nodup ∧
      ∀ e ∈ List.foldl addPoint [] (xs ++ [x]), e.record_id ≠ ""
    rw [List.foldl_append, List.foldl_cons, List.foldl_nil]
    exact step _ x ih

/-- With pairwise-distinct record ids, the dict lookup of a present
entry's id returns that entry. -/
theorem find?_of_mem_nodup (acc : List AggEntry) (e : AggEntry)
    (he : e ∈ acc) (hnd : (acc.map (fun x => x.record_id)).Nodup) :
    acc.find? (fun x => x.record_id == e.record_id) = some e := by
  induction acc with
  | nil => cases he
  | cons a rest ih =>
    rw [List.map_cons, List.nodup_cons] at hnd
    rcases List.mem_cons.mp he with rfl | he
    · rw [List.find?_cons_of_pos]
      rw [beq_iff_eq]
    · have hna : (a.record_id == e.record_id) = false := by
        rw [beq_eq_false_iff_ne]
        intro hc
        exact hnd.1 (hc ▸ List.mem_map.mpr ⟨e, he, rfl⟩)
      rw [List.find?_cons_of_neg _ (by rw [hna]; exact Bool.false_ne_true)]
      exact ih he hnd.2

/-- Descending-score comparison handed to the sort (reverse=True on the
score key). -/
def scoreDescBool (a b : AggEntry) : Bool := decide (b.score ≤ a.score)

/-- One search result after hydration (relational row present): record id,
aggregated score, highlights. -/
structure SearchResult where
  id : String
  score : Int
  highlights : List Highlight
deriving DecidableEq

/-- The result built from an aggregation entry. -/
def mkResult (e : AggEntry) : SearchResult :=
  { id := e.record_id, score := e.score, highlights := e.highlights }

/-- hybrid_search: embed the query (outside this model), fetch limit × 5
points, aggregate by record_id, sort by aggregated score descending
(Python sorted is stable), truncate to limit, hydrate the relational rows
in order and drop every id whose row is missing. -/
def hybrid_search (search : Nat → List SPoint) (rows : String → Bool)
    (limit : Nat) : List SearchResult :=
  let pts := search (limit * 5)
  let ordered := (aggregate pts).mergeSort scoreDescBool
  let record_ids := (ordered.take limit).map (fun e => e.record_id)
  record_ids.filterMap (fun rid =>
    if rows rid then
      match (aggregate pts).find? (fun e => e.record_id == rid) with
      | some e => some (mkResult e)
      | none => none
    else none)

theorem filterMap_if {α β : Type} (l : List α) (p : α → Bool) (f : α → β) :
    l.filterMap (fun x => if p x then some (f x) else none)
      = (l.filter p).map f := by
  induction l with
  | nil => rfl
  | cons a rest ih =>
    by_cases hp : p a <;> simp [List.filterMap_cons, List.filter_cons, hp, ih]

/-- The hydration loop in closed form: keep the sorted-and-truncated
entries whose relational row exists, project each to its result. -/
theorem hybrid_search_eq (search : Nat → List SPoint) (rows : String → Bool)
    (limit : Nat) :
    hybrid_search search rows limit
      = ((((aggregate (search (limit * 5))).mergeSort scoreDescBool).take
            limit).filter (fun e => rows e.record_id)).map mkResult := by
  rw [hybrid_search]
  rw [List.filterMap_map]
  rw [show (((aggregate (search (limit * 5))).mergeSort scoreDescBool).take
      limit).filterMap ((fun rid =>
        if rows rid then
          match (aggregate (search (limit * 5))).find?
              (fun e => e.record_id == rid) with
          | some e => some (mkResult e)
          | none => none
        else none) ∘ (fun e => e.record_id))
      = (((aggregate (search (limit * 5))).mergeSort scoreDescBool).take
          limit).filterMap (fun e => if rows e.record_id then some (mkResult e)
            else none) from ?_]
  · exact filterMap_if _ _ _
  · apply List.filterMap_congr
    intro e he
    have hmem : e ∈ aggregate (search (limit * 5)) := by
      have h1 : e ∈ (aggregate (search (limit * 5))).mergeSort scoreDescBool :=
        List.mem_of_mem_take he
      exact (List.mergeSort_perm _ scoreDescBool).mem_iff.mp h1
    have hfind := find?_of_mem_nodup _ e hmem (aggregate_keys _).1
    simp only [Function.comp]
    rw [hfind]

end CortexDB

namespace CortexDB

/-- C6: hybrid_search consumes exactly the limit × 5 vector-search points;
returned points are grouped by record_id, each record scoring the maximum
point score of its group with every group point collected as a highlight
carrying field, chunk_index, text and score; records are ordered by
aggregated score descending, truncated to limit; and a record whose
relational row is absent at hydration is dropped. -/
theorem hybrid_search_spec (search : Nat → List SPoint) (rows : String → Bool)
    (limit : Nat) :
    (∀ search₂ : Nat → List SPoint, search₂ (limit * 5) = search (limit * 5) →
      hybrid_search search₂ rows limit = hybrid_search search rows limit) ∧
    (hybrid_search search rows limit).length ≤ limit ∧
    List.Pairwise (fun a b => b.score ≤ a.score) (hybrid_search search rows limit) ∧
    (∀ r ∈ hybrid_search search rows limit,
      rows r.id = true ∧
      (∃ p ∈ search (limit * 5), p.record_id = r.id ∧ p.score = r.score) ∧
      (∀ p ∈ search (limit * 5), p.record_id = r.id → p.score ≤ r.score) ∧
      r.highlights = ((search (limit * 5)).filter
          (fun p => p.record_id == r.id)).map pointHighlight) ∧
    (∀ e ∈ ((aggregate (search (limit * 5))).mergeSort scoreDescBool).take limit,
      (rows e.record_id = true → mkResult e ∈ hybrid_search search rows limit) ∧
      (rows e.record_id = false →
        ∀ r ∈ hybrid_search search rows limit, r.id ≠ e.record_id)) := by
  have heq := hybrid_search_eq search rows limit
  have hordnd : ((((aggregate (search (limit * 5))).mergeSort
      scoreDescBool).take limit).map (fun e => e.record_id)).Nodup := by
    apply List.Sublist.nodup (List.Sublist.map _ (List.take_sublist _ _))
    have hperm := (List.mergeSort_perm (aggregate (search (limit * 5)))
      scoreDescBool).map (fun e => e.record_id)
    exact (hperm.nodup_iff).mpr (aggregate_keys _).1
  refine ⟨?_, ?_, ?_, ?_, ?_⟩
  · intro search₂ h2
    rw [hybrid_search, hybrid_search, h2]
  · rw [heq, List.length_map]
    exact le_trans (List.length_filter_le _ _) (by rw [List.length_take]; omega)
  · rw [heq]
    rw [List.pairwise_map]
    have hsorted : List.Pairwise (fun a b => scoreDescBool a b = true)
        ((aggregate (search (limit * 5))).mergeSort scoreDescBool) :=
      List.sorted_mergeSort
        (by intro a b c hab hbc
            simp only [scoreDescBool, decide_eq_true_eq] at *
            omega)
        (by intro a b
            simp only [scoreDescBool]
            rcases le_total b.score a.score with h | h <;> simp [h])
        (aggregate (search (limit * 5)))
    have htake := List.Pairwise.sublist (List.take_sublist limit _) hsorted
    refine List.Pairwise.imp ?_ (List.Pairwise.sublist (List.filter_sublist _) htake)
    intro a b hab
    simp only [scoreDescBool, decide_eq_true_eq] at hab
    exact hab
  · intro r hr
    rw [heq] at hr
    obtain ⟨e, hef, rfl⟩ := List.mem_map.mp hr
    rw [List.mem_filter] at hef
    obtain ⟨het, hrows⟩ := hef
    have hmem : e ∈ aggregate (search (limit * 5)) :=
      (List.mergeSort_perm _ scoreDescBool).mem_iff.mp (List.mem_of_mem_take het)
    have hne : e.record_id ≠ "" := (aggregate_keys _).2 e hmem
    have hinv := aggregate_inv (search (limit * 5)) e.record_id hne
    rw [find?_of_mem_nodup _ e hmem (aggregate_keys _).1] at hinv
    have hinv : entrySpec (search (limit * 5)) e.record_id e := hinv
    obtain ⟨-, hex, hmax, hhl⟩ := hinv
    exact ⟨hrows, hex, hmax, hhl⟩
  · intro e het
    constructor
    · intro hrows
      rw [heq]
      exact List.mem_map.mpr ⟨e, List.mem_filter.mpr ⟨het, hrows⟩, rfl⟩
    · intro hrows r hr hc
      rw [heq] at hr
      obtain ⟨e2, hef2, rfl⟩ := List.mem_map.mp hr
      rw [List.mem_filter] at hef2
      have hce : e2.record_id = e.record_id := hc
      have he2e : e2 = e :=
        List.inj_on_of_nodup_map hordnd hef2.1 het hce
      rw [he2e] at hef2
      rw [hef2.2] at hrows
      exact absurd hrows (by simp)

end CortexDB
